import Mathlib

/-!
Verification development for the SCA file-conversion engine
(`src/unnamed/part_001`, a React/TypeScript page). The engine's value-level
code works on JavaScript strings; we embed strings as `List Char` and model
each JS primitive the source uses (`slice`, `replace`, `trim`, `padStart`,
`parseFloat`, `toFixed`, `Number.prototype` semantics over exact rationals,
`date-fns` `parse`/`format`/`subMonths`) as executable Lean functions, then
embed the engine's functions over them.
-/

set_option maxRecDepth 40000

namespace SCA

/-- Strings are modelled as lists of characters. -/
abbrev Str := List Char

/-- The ten decimal digit characters. -/
def digitChars : Str := "0123456789".data

/-- Character used for decimal digit `k` (JS number-to-string digits). -/
def digitChar (k : Nat) : Char := digitChars.getD k '0'

/-- Decimal digit test, JS `\d` = `[0-9]`. -/
def isDigitC (c : Char) : Bool := ('0'.toNat ≤ c.toNat) && (c.toNat ≤ '9'.toNat)

/-- Numeric value of a digit character. -/
def digitVal (c : Char) : Nat := c.toNat - '0'.toNat

/-- Fuel-driven digit expansion (`fuel` strictly exceeds `n`, so the zero
case is unreachable; fuel keeps the recursion structural). -/
def natToDigitsAux : Nat → Nat → Str
  | 0, _ => []
  | fuel + 1, n =>
    if n < 10 then [digitChar n]
    else natToDigitsAux fuel (n / 10) ++ [digitChar (n % 10)]

/-- Decimal digits of a natural number, most significant first
(the digits JS `String(n)` produces for a natural). -/
def natToDigits (n : Nat) : Str := natToDigitsAux (n + 1) n

/-- Decimal rendering of an integer, JS `String(i)` for integral values. -/
def intToDigits (i : Int) : Str :=
  if i < 0 then '-' :: natToDigits i.natAbs else natToDigits i.natAbs

/-- Natural number denoted by a digit string (used by `parseInt` models). -/
def digitsToNat (s : Str) : Nat := s.foldl (fun a c => a * 10 + digitVal c) 0

/-- JS whitespace class used by `trim`/`trimEnd` (the characters relevant to
this code base: ASCII blanks, NBSP and the BOM). -/
def isJsWs (c : Char) : Bool :=
  c == ' ' || c == '\t' || c == '\n' || c == '\r' ||
  c == '\x0b' || c == '\x0c' || c == ' ' || c == '﻿'

/-- JS `String.prototype.trim`. -/
def jsTrim (s : Str) : Str :=
  ((s.dropWhile isJsWs).reverse.dropWhile isJsWs).reverse

/-- JS `String.prototype.trimEnd`. -/
def jsTrimEnd (s : Str) : Str :=
  (s.reverse.dropWhile isJsWs).reverse

/-- JS `s.slice(-k)` for a non-negative count `k`: the last `k` characters,
except that `k = 0` (JS `-0 === 0`) yields the whole string. -/
def jsSliceFromEnd (s : Str) (k : Nat) : Str :=
  if k = 0 then s else s.drop (s.length - k)

/-- JS `s.padStart(2, c)`. -/
def padStart2 (c : Char) (s : Str) : Str :=
  if s.length < 2 then List.replicate (2 - s.length) c ++ s else s

/-- Two-digit zero padding, JS `String(n).padStart(2, '0')`. -/
def pad2 (n : Nat) : Str := padStart2 '0' (natToDigits n)

/-- Zero padding to width `w` on the left (date-fns `addLeadingZeros`). -/
def padZeroTo (w : Nat) (s : Str) : Str :=
  List.replicate (w - s.length) '0' ++ s

/-- JS `String.prototype.replace` with a plain (non-regex) pattern: replaces
only the first occurrence of character `p` by character `q`. -/
def jsReplaceFirstChar (p q : Char) : Str → Str
  | [] => []
  | c :: t => if c = p then q :: t else c :: jsReplaceFirstChar p q t

/-- JS `String.prototype.replace` with a plain pattern, first occurrence of
character `p` removed. -/
def jsRemoveFirstChar (p : Char) : Str → Str
  | [] => []
  | c :: t => if c = p then t else c :: jsRemoveFirstChar p t

/-- JS `split('.')`-style split on a single character. -/
def splitOnChar (p : Char) (s : Str) : List Str :=
  match s with
  | [] => [[]]
  | c :: t =>
    let r := splitOnChar p t
    if c = p then [] :: r
    else match r with
      | [] => [[c]]
      | h :: t2 => (c :: h) :: t2

/-- First `some` in a list of options (models a JS loop that keeps the first
successfully parsed result). -/
def firstSome {α : Type} : List (Option α) → Option α
  | [] => none
  | some a :: _ => some a
  | none :: t => firstSome t

/- Basic lemmas about the primitives. -/

theorem isDigit_digitChar (k : Nat) : isDigitC (digitChar k) = true := by
  by_cases h : k < 10
  · interval_cases k <;> decide
  · have h10 : digitChars.length = 10 := by decide
    have hlen : digitChars.length ≤ k := by omega
    rw [digitChar, List.getD_eq_default _ _ hlen]
    decide

theorem natToDigitsAux_spec (fuel : Nat) :
    ∀ n, n < fuel →
      natToDigitsAux fuel n ≠ [] ∧ ∀ c ∈ natToDigitsAux fuel n, isDigitC c = true := by
  induction fuel with
  | zero => intro n hn; omega
  | succ fuel ih =>
    intro n hn
    rw [natToDigitsAux]
    split
    · refine ⟨by simp, ?_⟩
      intro c hc
      simp at hc
      subst hc
      exact isDigit_digitChar _
    · have hrec := ih (n / 10) (by omega)
      refine ⟨by simp [hrec.1], ?_⟩
      intro c hc
      rcases List.mem_append.mp hc with h | h
      · exact hrec.2 c h
      · simp at h
        subst h
        exact isDigit_digitChar _

theorem natToDigits_ne_nil (n : Nat) : natToDigits n ≠ [] :=
  (natToDigitsAux_spec (n + 1) n (by omega)).1

theorem natToDigits_all_digits (n : Nat) :
    ∀ c ∈ natToDigits n, isDigitC c = true :=
  (natToDigitsAux_spec (n + 1) n (by omega)).2

theorem length_jsSliceFromEnd (s : Str) (k : Nat) (hk : k ≠ 0)
    (hs : k ≤ s.length) : (jsSliceFromEnd s k).length = k := by
  simp [jsSliceFromEnd, hk]
  omega

theorem length_padStart2 (c : Char) (s : Str) :
    (padStart2 c s).length = max 2 s.length := by
  simp [padStart2]
  split <;> simp <;> omega

/-! ## Data types and output-field enumerations (part_001 lines 28, 42-45) -/

/-- `type DataType = 'Inteiro' | 'Alfanumérico' | 'Numérico' | 'Data' | 'CPF' | 'CNPJ'`. -/
inductive DataTypeV
  | inteiro
  | alfanumerico
  | numerico
  | dataT
  | cpf
  | cnpj
deriving DecidableEq

/-- `type PaddingDirection = 'left' | 'right'`. -/
inductive PadDir
  | left
  | right
deriving DecidableEq

/-- `type DateFormat = 'YYYYMMDD' | 'DDMMYYYY'`. -/
inductive DateFormatT
  | yyyymmdd
  | ddmmyyyy
deriving DecidableEq

/-- `type OutputFormat = 'txt' | 'csv'`. -/
inductive OutputFormat
  | txt
  | csv
deriving DecidableEq

/-- Effective data type of an output field: a `DataType`, the string
`'Calculado'`, or `null` (the return type of `getOutputFieldDataType`). -/
inductive EffDataType
  | det (t : DataTypeV)
  | calculado
  | nullT
deriving DecidableEq

/-- The types whose left-padded overflow keeps trailing characters in
`convertFile`: `Numérico`, `Inteiro`, `CPF`, `CNPJ`, `Data`. -/
def isNumericLikeEff : EffDataType → Bool
  | .det .numerico => true
  | .det .inteiro => true
  | .det .cpf => true
  | .det .cnpj => true
  | .det .dataT => true
  | _ => false

/-! ## Fixed-width padding/truncation formatter (part_001 lines 2060-2137)

The `outputConfig.format === 'txt'` branch of `convertFile`, split into the
code's successive steps. -/

/-- First truncation step: keep trailing characters for left-padded
numeric-like fields (`slice(-target)`, with the JS `slice(-0)` quirk),
leading characters otherwise (`substring(0, target)`). -/
def truncToTarget (padDir : PadDir) (eff : EffDataType) (target : Nat)
    (v : Str) : Str :=
  if v.length > target then
    if padDir = PadDir.left ∧ isNumericLikeEff eff then jsSliceFromEnd v target
    else v.take target
  else v

/-- Padding step: fill the shortfall to `target` with `padChar` on the
configured side (no-op when there is no positive shortfall). -/
def padToTarget (padDir : PadDir) (padChar : Char) (target : Nat)
    (v : Str) : Str :=
  let corePadLen := target - v.length
  if corePadLen > 0 then
    if padDir = PadDir.left then List.replicate corePadLen padChar ++ v
    else v ++ List.replicate corePadLen padChar
  else v

/-- Re-insertion of the decimal point for zero-padded `Numérico` values:
`paddedCoreNumStr.slice(0,-2) + "." + paddedCoreNumStr.slice(-2)` and the
short-string fallbacks. -/
def decimalRejoin (padded : Str) : Str :=
  if padded.length > 2 then
    padded.take (padded.length - 2) ++ '.' :: padded.drop (padded.length - 2)
  else if padded.length > 0 then '0' :: '.' :: padStart2 '0' padded
  else "0.00".data

/-- Defensive re-clamp after padding (`if (processedValue.length > len)`). -/
def clampToLen (padDir : PadDir) (eff : EffDataType) (len : Nat)
    (s : Str) : Str :=
  if s.length > len then
    if padDir = PadDir.left ∧ isNumericLikeEff eff then jsSliceFromEnd s len
    else s.take len
  else s

/-- The whole fixed-width formatter for one field of one row: the
`outputConfig.format === 'txt'` block of `convertFile` applied to the
resolved `value`, a configured length, padding character and direction, and
the field's effective data type. -/
def formatFixedWidth (len : Nat) (padChar : Char) (padDir : PadDir)
    (eff : EffDataType) (value : Str) : Str :=
  if len > 0 then
    let isNegative : Bool := value.head? == some '-'
    let coreValue := if isNegative then value.tail else value
    let sign : Str := if isNegative then ['-'] else []
    let valueForLengthCheck :=
      if eff = EffDataType.det .numerico ∧ padChar = '0' then
        jsRemoveFirstChar '.' coreValue
      else coreValue
    let target := if isNegative then len - 1 else len
    let v1 := truncToTarget padDir eff target valueForLengthCheck
    let core2 :=
      if eff = EffDataType.det .numerico ∧ padChar = '0' ∧ '.' ∈ coreValue then
        decimalRejoin (padToTarget padDir padChar target v1)
      else padToTarget padDir padChar target v1
    clampToLen padDir eff len (sign ++ core2)
  else []

theorem length_padToTarget (padDir : PadDir) (padChar : Char) (target : Nat)
    (v : Str) : (padToTarget padDir padChar target v).length = max target v.length := by
  simp only [padToTarget]
  split
  · split <;> simp <;> omega
  · omega

theorem length_truncToTarget_le (padDir : PadDir) (eff : EffDataType)
    (target : Nat) (v : Str) (ht : target ≠ 0) :
    (truncToTarget padDir eff target v).length ≤ target := by
  simp only [truncToTarget]
  split
  · split
    · rw [length_jsSliceFromEnd _ _ ht (by omega)]
    · simp
  · omega

theorem length_clampToLen (padDir : PadDir) (eff : EffDataType) (len : Nat)
    (s : Str) (h0 : 0 < len) (hle : len ≤ s.length) :
    (clampToLen padDir eff len s).length = len := by
  simp only [clampToLen]
  split
  · split
    · exact length_jsSliceFromEnd _ _ (by omega) (by omega)
    · simp
      omega
  · omega

theorem length_decimalRejoin_ge (padded : Str) :
    padded.length + 1 ≤ (decimalRejoin padded).length ∧
    4 ≤ (decimalRejoin padded).length ∨
    (decimalRejoin padded).length = padded.length + 1 := by
  simp only [decimalRejoin]
  split
  · right
    simp
    omega
  · split
    · left
      constructor
      · simp [length_padStart2]
        omega
      · simp [length_padStart2]
    · left
      constructor
      · simp_all
      · simp_all

/-- Core length fact about the fixed-width formatter: with a positive
configured length, the output has exactly that many characters. -/
theorem length_formatFixedWidth (len : Nat) (padChar : Char)
    (padDir : PadDir) (eff : EffDataType) (value : Str) (h0 : 0 < len) :
    (formatFixedWidth len padChar padDir eff value).length = len := by
  simp only [formatFixedWidth, if_pos h0]
  set isNegative : Bool := value.head? == some '-' with hneg
  set coreValue := if isNegative then value.tail else value with hcore
  set sign : Str := if isNegative then ['-'] else [] with hsign
  set vflc :=
    if eff = EffDataType.det .numerico ∧ padChar = '0' then
      jsRemoveFirstChar '.' coreValue
    else coreValue with hvflc
  set target := if isNegative then len - 1 else len with htarget
  have hsignlen : sign.length = if isNegative then 1 else 0 := by
    rw [hsign]
    split <;> simp
  have hlen_eq : len = target + sign.length := by
    rw [htarget, hsignlen]
    split <;> omega
  set v1 := truncToTarget padDir eff target vflc with hv1
  -- the padded core is at least `target` characters long in every branch
  have hpadlen : ∀ w : Str, target ≤ (padToTarget padDir padChar target w).length := by
    intro w
    rw [length_padToTarget]
    omega
  set core2 :=
    if eff = EffDataType.det .numerico ∧ padChar = '0' ∧ '.' ∈ coreValue then
      decimalRejoin (padToTarget padDir padChar target v1)
    else padToTarget padDir padChar target v1 with hcore2
  have hcore2len : target ≤ core2.length := by
    rw [hcore2]
    split
    · -- decimal re-insertion branch: the rejoined string is at least one
      -- character longer than the padded core, which is at least `target` long
      rcases length_decimalRejoin_ge (padToTarget padDir padChar target v1) with
        ⟨hge, _⟩ | heq
      · have hp := hpadlen v1
        omega
      · have hp := hpadlen v1
        omega
    · exact hpadlen v1
  have hple : len ≤ (sign ++ core2).length := by
    simp only [List.length_append]
    omega
  exact length_clampToLen padDir eff len _ h0 hple

/-! ## Mask removal and Numeric coercion (part_001 lines 339-360, 1947-1992) -/

/-- `removeMaskHelper`: strips formatting punctuation per data type
(`null` data type resolves to the empty string; the `'RG'` case of the
source switch is outside the declared `DataType` union and unreachable). -/
def removeMaskHelper (value : Str) (dataType : Option DataTypeV) : Str :=
  match dataType with
  | none => []
  | some .cpf => value.filter isDigitC
  | some .cnpj => value.filter isDigitC
  | some .inteiro => value.filter isDigitC
  | some .numerico => value.filter isDigitC
  | some .dataT => value.filter isDigitC
  | some .alfanumerico => value

/-- Helper for the `replace(/\./g, ...)` callback that keeps only the dot at
`lastIndexOf('.')`: on the reversed string, keep the first dot and delete the
rest. -/
def keepFirstDotRev : Str → Str
  | [] => []
  | c :: t => if c = '.' then c :: t.filter (fun d => ¬(d = '.')) else c :: keepFirstDotRev t

/-- Remove every `'.'` except the last one (the thousands-separator pass of
the `Numérico` case). -/
def dropDotsExceptLast (s : Str) : Str := (keepFirstDotRev s.reverse).reverse

/-- Unmasked numeric cleaning: `replace(/[R$ ]/g, '')`, keep only the last
dot, then `replace(',', '.')` (first comma only). -/
def cleanNumericNoMask (s : Str) : Str :=
  jsReplaceFirstChar ',' '.'
    (dropDotsExceptLast (s.filter (fun c => ¬(c = 'R' ∨ c = '$' ∨ c = ' '))))

/-- The `numStr.split('.')` re-joining step: when more than two parts, glue
all but the last without dots and keep a single decimal point. -/
def joinPartsStep (s : Str) : Str :=
  let parts := splitOnChar '.' s
  if parts.length > 2 then parts.dropLast.flatten ++ '.' :: parts.getLastD []
  else s

/-- JS `numStr.match(/^(-?\d+\.?\d*)|(^-?\.\d+)/)` on the part after an
optional leading minus: first the `\d+\.?\d*` alternative, then `\.\d+`. -/
def jsNumMatchCore (s : Str) : Option Str :=
  let ds := s.takeWhile isDigitC
  if ds ≠ [] then
    match s.drop ds.length with
    | '.' :: r2 => some (ds ++ '.' :: r2.takeWhile isDigitC)
    | _ => some ds
  else
    match s with
    | '.' :: r2 =>
      let ds2 := r2.takeWhile isDigitC
      if ds2 ≠ [] then some ('.' :: ds2) else none
    | _ => none

/-- JS `numStr.match(/^(-?\d+\.?\d*)|(^-?\.\d+)/)`, returning the matched
text. -/
def jsNumMatch (s : Str) : Option Str :=
  match s with
  | '-' :: t => (jsNumMatchCore t).map (fun m => '-' :: m)
  | _ => jsNumMatchCore s

/-- Exact-rational model of JS `parseFloat` restricted to the character
material reachable here (sign, digits, one decimal point; exponents and
leading whitespace cannot occur on the cleaned strings this engine parses).
Returns `none` where JS returns `NaN`. -/
def jsParseFloatPrefix (s : Str) : Option ℚ :=
  let negAndRest : Bool × Str :=
    match s with
    | '-' :: t => (true, t)
    | '+' :: t => (false, t)
    | _ => (false, s)
  let ip := negAndRest.2.takeWhile isDigitC
  let fp : Str :=
    match negAndRest.2.drop ip.length with
    | '.' :: t => t.takeWhile isDigitC
    | _ => []
  if ip = [] ∧ fp = [] then none
  else
    let q : ℚ := mkRat (digitsToNat ip * 10 ^ fp.length + digitsToNat fp) (10 ^ fp.length)
    some (if negAndRest.1 then -q else q)

/-- Number of times `p` divides `n` (fuel-bounded; the fuel `n` dominates the
multiplicity for every `p ≥ 2`). -/
def multOfAux (p : Nat) : Nat → Nat → Nat
  | 0, _ => 0
  | fuel + 1, n => if 1 < p ∧ n ≠ 0 ∧ n % p = 0 then multOfAux p fuel (n / p) + 1 else 0

def multOf (p n : Nat) : Nat := multOfAux p n n

/-- The smallest magnitude `parseFloat` rounds to `Infinity`
(`2^1024 - 2^970`, the midpoint above the largest finite double, which
round-to-nearest-even sends up). -/
def infinityBound : ℚ := mkRat ((2 ^ 1024 - 2 ^ 970 : Nat) : Int) 1

/-- `toFixed`'s fixed-notation threshold `10^21` (ES2023
`Number.prototype.toFixed` step 6). -/
def toFixedBigBound : ℚ := mkRat ((10 ^ 21 : Nat) : Int) 1

/-- ECMA `Number::toString` (radix 10) for a positive decimal-finite value of
magnitude at least `10^21` — the fallback `toFixed` takes there.  Such a value
prints as `"Infinity"` past the double range, and otherwise in exponential
form (the `n > 21` case of ES2023 6.1.6.1.20): the value is decomposed as
`s·10^(n-k)` with `s` not divisible by 10 and `k` its digit count; the
double's shortest-roundtrip digit choice is idealized to this exact decimal
decomposition, in line with the development's exact-rational number model. -/
def jsToStringBig (q : ℚ) : Str :=
  if infinityBound ≤ q then "Infinity".data
  else
    let a2 := multOf 2 q.den
    let a5 := multOf 5 q.den
    let c := max a2 a5
    let M := q.num.toNat * 2 ^ (c - a2) * 5 ^ (c - a5)
    let v := multOf 10 M
    let S := M / 10 ^ v
    let n : Int := ((natToDigits S).length : Int) + ((v : Int) - (c : Int))
    match natToDigits S with
    | [d0] => d0 :: 'e' :: '+' :: intToDigits (n - 1)
    | d0 :: rest => d0 :: '.' :: rest ++ 'e' :: '+' :: intToDigits (n - 1)
    | [] => []

/-- Model of JS `Number.prototype.toFixed(2)` (ES2023
`Number.prototype.toFixed`): strip the sign, then — per step 6 — a magnitude
of at least `10^21` falls back to `Number::toString` (exponential notation, or
`"Infinity"` when `parseFloat` had already overflowed), and a smaller
magnitude is rendered in fixed notation with the cents rounded to the nearer
candidate, ties toward the larger one. -/
def toFixed2 (q : ℚ) : Str :=
  let c : ℕ := (Int.floor (|q| * 100 + 1 / 2)).toNat
  if toFixedBigBound ≤ |q| then (if q < 0 then ['-'] else []) ++ jsToStringBig |q|
  else
    (if q < 0 then ['-'] else []) ++
      natToDigits (c / 100) ++ '.' :: [digitChar (c / 10 % 10), digitChar (c % 10)]

/-- The trimmed, possibly mask-stripped cell value entering the `Numérico`
switch case (`value` at part_001 line 1949/1953). -/
def numericPreValue (removeMask : Bool) (orig : Str) : Str :=
  let value := jsTrim orig
  if removeMask && !(value.isEmpty) then removeMaskHelper value (some .numerico)
  else value

/-- The cleaned candidate string `numStr` right before the regex match
(part_001 lines 1965-1977). -/
def numericCleaned (removeMask : Bool) (orig : Str) : Str :=
  let value := numericPreValue removeMask orig
  let numStr :=
    if removeMask then value.filter (fun c => isDigitC c || c = '.' || c = '-')
    else cleanNumericNoMask value
  joinPartsStep numStr

/-- Full `Numérico` coercion of one cell (part_001 lines 1964-1992): clean,
match, parse, format to two decimals, with the `0.00` fallbacks. -/
def coerceNumericCell (removeMask : Bool) (orig : Str) : Str :=
  let value := numericPreValue removeMask orig
  match jsNumMatch (numericCleaned removeMask orig) with
  | some m =>
    match jsParseFloatPrefix m with
    | some q => toFixed2 q
    | none => "0.00".data
  | none =>
    if value = [] ∨ value = ['0'] ∨ value = ['-'] then "0.00".data
    else "0.00".data

/-- Decidable body of the specification regex `\d+\.\d{2}$` applied after an
optional sign. -/
def numShapeTail (r : Str) : Bool :=
  (!(r.takeWhile isDigitC).isEmpty) &&
    (match r.drop (r.takeWhile isDigitC).length with
     | ['.', a, b] => isDigitC a && isDigitC b
     | _ => false)

/-- Decidable form of the specification regex `^-?\d+\.\d{2}$`. -/
def matchesNumShape (s : Str) : Bool :=
  numShapeTail (if s.head? = some '-' then s.tail else s)

theorem takeWhile_append_not {p : Char → Bool} (xs : Str) (y : Char)
    (l : Str) (hx : ∀ c ∈ xs, p c = true) (hy : p y = false) :
    (xs ++ y :: l).takeWhile p = xs ∧ (xs ++ y :: l).drop xs.length = y :: l := by
  constructor
  · induction xs with
    | nil => simp [List.takeWhile, hy]
    | cons a t ih =>
      have ha : p a = true := hx a (by simp)
      simp [List.takeWhile, ha]
      exact ih (fun c hc => hx c (by simp [hc]))
  · simp

theorem numShapeTail_canonical (nd : Str) (a b : Char) (hne : nd ≠ [])
    (hd : ∀ c ∈ nd, isDigitC c = true) (hda : isDigitC a = true)
    (hdb : isDigitC b = true) : numShapeTail (nd ++ '.' :: [a, b]) = true := by
  have hdot : isDigitC '.' = false := by decide
  have htk := takeWhile_append_not nd '.' [a, b] hd hdot
  rw [numShapeTail, htk.1, htk.2]
  obtain ⟨c0, nd2, rfl⟩ := List.exists_cons_of_ne_nil hne
  simp [hda, hdb]

/-- Below `toFixed`'s `10^21` fixed-notation threshold the two-decimal
rendering matches `^-?\d+\.\d{2}$`. -/
theorem matchesNumShape_toFixed2 (q : ℚ) (hq : |q| < toFixedBigBound) :
    matchesNumShape (toFixed2 q) = true := by
  rw [toFixed2, if_neg (not_le.mpr hq)]
  set c : ℕ := (Int.floor (|q| * 100 + 1 / 2)).toNat with hc
  set nd := natToDigits (c / 100) with hnd
  have hd := natToDigits_all_digits (c / 100)
  have hne := natToDigits_ne_nil (c / 100)
  rw [← hnd] at hd hne
  have hshape := numShapeTail_canonical nd (digitChar (c / 10 % 10))
    (digitChar (c % 10)) hne hd (isDigit_digitChar _) (isDigit_digitChar _)
  by_cases hq : q < 0
  · rw [if_pos hq]
    rw [matchesNumShape]
    simp only [List.cons_append, List.head?_cons, List.tail_cons, if_pos rfl]
    exact hshape
  · rw [if_neg hq]
    obtain ⟨c0, nd2, hnd2⟩ := List.exists_cons_of_ne_nil hne
    have hc0 : isDigitC c0 = true := hd c0 (by rw [hnd2]; simp)
    have hc0ne : c0 ≠ '-' := by
      intro h
      rw [h] at hc0
      exact absurd hc0 (by decide)
    rw [matchesNumShape]
    rw [hnd2]
    simp only [List.nil_append, List.cons_append, List.head?_cons]
    rw [if_neg (by simp [hc0ne])]
    rw [← List.cons_append]
    rw [← hnd2]
    exact hshape

/-! ## Delimited-output quoting (part_001 lines 2141-2155) -/

/-- JS `String.prototype.includes`: substring containment (an empty needle is
always contained). -/
def strIncludes (s sub : Str) : Bool := decide (sub <:+: s)

/-- JS `csvValue.replace(/"/g, '""')`: global replacement of each quote by a
doubled quote. -/
def jsReplaceAllQuote : Str → Str
  | [] => []
  | c :: t =>
    if c = '"' then '"' :: '"' :: jsReplaceAllQuote t
    else c :: jsReplaceAllQuote t

/-- The quoting condition of the CSV branch of `convertFile`:
`csvValue.includes(delimiter) || csvValue.includes('"') || csvValue.includes('\n')`. -/
def csvNeedsQuotes (delim v : Str) : Bool :=
  strIncludes v delim || strIncludes v ['"'] || strIncludes v ['\n']

/-- CSV field serialization: wrap in double quotes with inner quotes doubled
when the value needs quoting, otherwise emit the value unchanged. -/
def csvProcessField (delim v : Str) : Str :=
  if csvNeedsQuotes delim v then '"' :: jsReplaceAllQuote v ++ ['"'] else v

/-- Specification-side statement of the quoting condition: the value
contains the active delimiter, a double-quote character, or a newline. -/
def containsSpecial (delim v : Str) : Prop :=
  delim <:+: v ∨ '"' ∈ v ∨ '\n' ∈ v

instance (delim v : Str) : Decidable (containsSpecial delim v) := by
  unfold containsSpecial
  infer_instance

/-- Specification-side doubling: every embedded double-quote character is
emitted twice, all other characters once. -/
def doubleQuotes (v : Str) : Str :=
  v.flatMap (fun c => if c = '"' then ['"', '"'] else [c])

theorem jsReplaceAllQuote_eq_doubleQuotes (v : Str) :
    jsReplaceAllQuote v = doubleQuotes v := by
  induction v with
  | nil => rfl
  | cons c t ih =>
    rw [jsReplaceAllQuote, doubleQuotes, List.flatMap_cons]
    rw [doubleQuotes] at ih
    split
    all_goals simp_all

theorem singleton_infix_iff_mem (a : Char) (l : Str) : [a] <:+: l ↔ a ∈ l := by
  constructor
  · intro h
    exact h.subset (by simp)
  · intro h
    obtain ⟨s, t, rfl⟩ := List.append_of_mem h
    exact ⟨s, t, by simp⟩

theorem csvNeedsQuotes_iff (delim v : Str) :
    csvNeedsQuotes delim v = true ↔ containsSpecial delim v := by
  rw [csvNeedsQuotes, containsSpecial, strIncludes, strIncludes, strIncludes]
  simp only [Bool.or_eq_true, decide_eq_true_eq]
  rw [singleton_infix_iff_mem, singleton_infix_iff_mem]
  tauto

/-! ## date-fns model: parse, format, subMonths

The source delegates date handling to `date-fns`; we model the parts it
uses.  `parse` matches a token sequence against the string: numeric tokens
consume one up to n digits greedily (`parseNDigits`), `'M'` uses the
`(1[0-2]|0?\d)` month pattern, `'yy'` values go through the two-digit-year
normalization relative to the reference date's year, and the parsed triple
is validated against real month lengths (leap years included).  Our
reference date is abstracted to its year `refYear` (`new Date()` in the
source). -/

/-- A calendar date as year / month (1-12) / day (1-based). -/
structure YMD where
  y : Int
  m : Nat
  d : Nat
deriving DecidableEq

/-- Proleptic Gregorian leap-year rule (as implemented by JS `Date`). -/
def isLeap (y : Int) : Bool := (y % 4 == 0 && y % 100 != 0) || y % 400 == 0

/-- Number of days in a month (month is 1-based; non-months map to an
arbitrary default, parsing validates the range first). -/
def daysInMonth (y : Int) (m : Nat) : Nat :=
  match m with
  | 1 => 31
  | 2 => if isLeap y then 29 else 28
  | 3 => 31
  | 4 => 30
  | 5 => 31
  | 6 => 30
  | 7 => 31
  | 8 => 31
  | 9 => 30
  | 10 => 31
  | 11 => 30
  | 12 => 31
  | _ => 30

/-- Format tokens used by the source's `date-fns` format strings. -/
inductive FTok
  | dayTok
  | monTok1
  | monTok2
  | yearTok4
  | yearTok2
  | lit (c : Char)
deriving DecidableEq

/-- date-fns `parseNDigits`: greedily consume between one and `maxN`
digits. -/
def takeUpToDigits (maxN : Nat) (s : Str) : Option (Nat × Str) :=
  let ds := (s.takeWhile isDigitC).take maxN
  if ds.isEmpty then none else some (digitsToNat ds, s.drop ds.length)

/-- date-fns month pattern for `'M'`: regex `(1[0-2]|0?\d)` with its
backtracking behavior. -/
def takeMonth1 (s : Str) : Option (Nat × Str) :=
  match s with
  | '1' :: c :: r =>
    if c = '0' ∨ c = '1' ∨ c = '2' then some (10 + digitVal c, r)
    else some (1, c :: r)
  | '0' :: c :: r => if isDigitC c then some (digitVal c, r) else some (0, c :: r)
  | c :: r => if isDigitC c then some (digitVal c, r) else none
  | [] => none

/-- date-fns `normalizeTwoDigitYear` relative to the current year. -/
def normTwoDigitYear (refYear : Nat) (v : Nat) : Nat :=
  if refYear ≤ 50 then (if v = 0 then 100 else v)
  else
    let rangeEnd := refYear + 50
    let rangeEndCentury := rangeEnd / 100 * 100
    if rangeEnd % 100 ≤ v then v + rangeEndCentury - 100 else v + rangeEndCentury

/-- Partially assembled date during token matching. -/
structure PDate where
  y : Option Int
  m : Option Nat
  d : Option Nat

/-- Run a token list over the input; any token failure or unconsumed
remainder makes the whole parse fail (date-fns returns `Invalid Date`). -/
def runToks (refYear : Nat) : List FTok → Str → PDate → Option PDate
  | [], s, acc => if s.isEmpty then some acc else none
  | t :: ts, s, acc =>
    match t with
    | .lit c =>
      match s with
      | c2 :: r => if c2 = c then runToks refYear ts r acc else none
      | [] => none
    | .dayTok =>
      (takeUpToDigits 2 s).bind fun p => runToks refYear ts p.2 { acc with d := some p.1 }
    | .monTok1 =>
      (takeMonth1 s).bind fun p => runToks refYear ts p.2 { acc with m := some p.1 }
    | .monTok2 =>
      (takeUpToDigits 2 s).bind fun p => runToks refYear ts p.2 { acc with m := some p.1 }
    | .yearTok4 =>
      (takeUpToDigits 4 s).bind fun p => runToks refYear ts p.2 { acc with y := some (p.1 : Int) }
    | .yearTok2 =>
      (takeUpToDigits 2 s).bind fun p =>
        runToks refYear ts p.2 { acc with y := some (normTwoDigitYear refYear p.1 : Int) }

/-- Validation performed by the date-fns month and day parsers. -/
def validYMD (dt : YMD) : Bool :=
  1 ≤ dt.m && dt.m ≤ 12 && 1 ≤ dt.d && dt.d ≤ daysInMonth dt.y dt.m

/-- Model of `parse(dateString, formatString, new Date())` followed by
`isValid`: `some` exactly when date-fns produces a valid date. -/
def dateFnsParse (refYear : Nat) (toks : List FTok) (s : Str) : Option YMD :=
  match runToks refYear toks s ⟨none, none, none⟩ with
  | some ⟨some y, some m, some d⟩ =>
    if validYMD ⟨y, m, d⟩ then some ⟨y, m, d⟩ else none
  | _ => none

/-- Token lists for the format strings `convertFile` tries, parameterized by
the separator where the source lists both `/` and `-` variants. -/
def fmtDDMMYYYYsep (sep : Char) : List FTok :=
  [.dayTok, .lit sep, .monTok2, .lit sep, .yearTok4]

def fmtDMYYYYsep (sep : Char) : List FTok :=
  [.dayTok, .lit sep, .monTok1, .lit sep, .yearTok4]

def fmtMMDDYYYYsep (sep : Char) : List FTok :=
  [.monTok2, .lit sep, .dayTok, .lit sep, .yearTok4]

def fmtMDYYYYsep (sep : Char) : List FTok :=
  [.monTok1, .lit sep, .dayTok, .lit sep, .yearTok4]

def fmtYYYYMMDDsep (sep : Char) : List FTok :=
  [.yearTok4, .lit sep, .monTok2, .lit sep, .dayTok]

def fmtYYYYMDsep (sep : Char) : List FTok :=
  [.yearTok4, .lit sep, .monTok1, .lit sep, .dayTok]

def fmtDDMMYYsep (sep : Char) : List FTok :=
  [.dayTok, .lit sep, .monTok2, .lit sep, .yearTok2]

def fmtDMYYsep (sep : Char) : List FTok :=
  [.dayTok, .lit sep, .monTok1, .lit sep, .yearTok2]

def fmtMMDDYYsep (sep : Char) : List FTok :=
  [.monTok2, .lit sep, .dayTok, .lit sep, .yearTok2]

def fmtMDYYsep (sep : Char) : List FTok :=
  [.monTok1, .lit sep, .dayTok, .lit sep, .yearTok2]

def fmtCompactYYYYMMDD : List FTok := [.yearTok4, .monTok2, .dayTok]

def fmtCompactDDMMYYYY : List FTok := [.dayTok, .monTok2, .yearTok4]

def fmtCompactYYMMDD : List FTok := [.yearTok2, .monTok2, .dayTok]

def fmtCompactDDMMYY : List FTok := [.dayTok, .monTok2, .yearTok2]

/-- The `commonFormats` array of the `Data` case (part_001 lines 2010-2017),
in source order. -/
def commonFormats : List (List FTok) :=
  [fmtDDMMYYYYsep '/', fmtDMYYYYsep '/', fmtDDMMYYYYsep '-', fmtDMYYYYsep '-',
   fmtMMDDYYYYsep '/', fmtMDYYYYsep '/', fmtMMDDYYYYsep '-', fmtMDYYYYsep '-',
   fmtYYYYMMDDsep '/', fmtYYYYMDsep '/', fmtYYYYMMDDsep '-', fmtYYYYMDsep '-',
   fmtDDMMYYsep '/', fmtDMYYsep '/', fmtDDMMYYsep '-', fmtDMYYsep '-',
   fmtMMDDYYsep '/', fmtMDYYsep '/', fmtMMDDYYsep '-', fmtMDYYsep '-',
   fmtCompactYYYYMMDD, fmtCompactDDMMYYYY, fmtCompactYYMMDD, fmtCompactDDMMYY]

/-- The prefix test `/^\d{4}-\d{2}-\d{2}/`. -/
def isoPrefixOk (s : Str) : Bool :=
  match s with
  | a :: b :: c :: d :: '-' :: e :: f :: '-' :: g :: h :: _ =>
    isDigitC a && isDigitC b && isDigitC c && isDigitC d &&
    isDigitC e && isDigitC f && isDigitC g && isDigitC h
  | _ => false

/-- The manual output formatting of the `Data` case (part_001 lines
2034-2038): unpadded `getFullYear`, two-digit month and day. -/
def manualDateFormat (f : DateFormatT) (dt : YMD) : Str :=
  match f with
  | .yyyymmdd => intToDigits dt.y ++ pad2 dt.m ++ pad2 dt.d
  | .ddmmyyyy => pad2 dt.d ++ pad2 dt.m ++ intToDigits dt.y

/-- date-fns `format` year field `yyyy`: era year, zero-padded to 4. -/
def fmtYear4 (y : Int) : Str :=
  padZeroTo 4 (natToDigits (if 0 < y then y.toNat else (1 - y).toNat))

/-- date-fns `format(date, 'ddMMyyyy')`. -/
def dateFnsFormatDDMMYYYY (dt : YMD) : Str := pad2 dt.d ++ pad2 dt.m ++ fmtYear4 dt.y

/-- date-fns `format(date, 'yyyyMMdd')`. -/
def dateFnsFormatYYYYMMDD (dt : YMD) : Str := fmtYear4 dt.y ++ pad2 dt.m ++ pad2 dt.d

/-- date-fns `format(date, 'MMyyyy')`. -/
def dateFnsFormatMMyyyy (dt : YMD) : Str := pad2 dt.m ++ fmtYear4 dt.y

/-- date-fns `subMonths`: subtract months with floor carry into the year and
clamp the day to the target month's length. -/
def subMonths (p : YMD) (n : Nat) : YMD :=
  let t : Int := p.y * 12 + (p.m : Int) - 1 - n
  let y2 := t / 12
  let m2 := (t % 12).toNat + 1
  ⟨y2, m2, min p.d (daysInMonth y2 m2)⟩

/-- Days from the Unix epoch to the civil date `y-m-d` (proleptic Gregorian;
Hinnant's `days_from_civil`, with the `Int` division — Euclidean, hence floor
for these positive divisors — carrying the era). -/
def daysFromCivil (y : Int) (m d : Nat) : Int :=
  let y1 : Int := if m ≤ 2 then y - 1 else y
  let era : Int := y1 / 400
  let yoe : Int := y1 - era * 400
  let doy : Int := (153 * ((m : Int) + (if 2 < m then -3 else 9)) + 2) / 5 + (d : Int) - 1
  let doe : Int := yoe * 365 + yoe / 4 - yoe / 100 + doy
  era * 146097 + doe - 719468

/-- Whether the month-shifted date stays inside the JS `Date` range: a `Date`
whose time value exceeds ±8.64e15 ms (±100,000,000 days from the epoch) is
invalid, and date-fns `format` then throws `RangeError` into the source's
`catch`.  The reference time-of-day is modeled as midnight UTC, matching the
development's year/month/day view of dates.  date-fns `addMonths` materializes
the last day of the target month before clamping, so that day must be in range
too (the clamped result bounds the other side). -/
def subMonthsInRange (p : YMD) (n : Nat) : Bool :=
  let sd := subMonths p n
  decide (-100000000 ≤ daysFromCivil sd.y sd.m sd.d) &&
    decide (daysFromCivil sd.y sd.m (daysInMonth sd.y sd.m) ≤ 100000000)

/-! ## Date coercion of a mapped cell (part_001 lines 1993-2052) -/

/-- The cleaned value computed inside the `Data` case: digits only under
mask removal, otherwise the value with `-`, `/`, `.` characters removed. -/
def dateCleanedValue (removeMask : Bool) (orig : Str) : Str :=
  let value0 := jsTrim orig
  let value :=
    if removeMask && !value0.isEmpty then removeMaskHelper value0 (some .dataT)
    else value0
  if removeMask && !value.isEmpty then value.filter isDigitC
  else if !value.isEmpty then value.filter (fun c => ¬(c = '-' ∨ c = '/' ∨ c = '.'))
  else value

/-- Compact-format bias: the ordering matching the requested output date
format is tried first. -/
def compactFirst (outFmt : DateFormatT) (len8 : Bool) : List FTok :=
  if len8 then (if outFmt = .yyyymmdd then fmtCompactYYYYMMDD else fmtCompactDDMMYYYY)
  else (if outFmt = .yyyymmdd then fmtCompactYYMMDD else fmtCompactDDMMYY)

/-- Compact-format bias: the other ordering, tried second. -/
def compactSecond (outFmt : DateFormatT) (len8 : Bool) : List FTok :=
  if len8 then (if outFmt = .yyyymmdd then fmtCompactDDMMYYYY else fmtCompactYYYYMMDD)
  else (if outFmt = .yyyymmdd then fmtCompactDDMMYY else fmtCompactYYMMDD)

/-- Full `Data` coercion of one cell, exactly as `convertFile` chains the
attempts: ISO prefix first, then the common-format loop, then the compact
digit-only fallback, empty string on total failure. -/
def coerceDateCell (removeMask : Bool) (orig : Str) (dfOpt : Option DateFormatT)
    (refYear : Nat) : Str :=
  let cleaned := dateCleanedValue removeMask orig
  let ds := jsTrim orig
  let outFmt := dfOpt.getD .ddmmyyyy
  let p1 : Option YMD :=
    if isoPrefixOk ds then dateFnsParse refYear (fmtYYYYMMDDsep '-') (ds.take 10) else none
  let p2 := p1 <|> firstSome (commonFormats.map fun f => dateFnsParse refYear f ds)
  let p3 := p2 <|>
    (if !cleaned.isEmpty && cleaned.all isDigitC then
      (if cleaned.length = 8 then
        dateFnsParse refYear (compactFirst outFmt true) cleaned <|>
          dateFnsParse refYear (compactSecond outFmt true) cleaned
      else if cleaned.length = 6 then
        dateFnsParse refYear (compactFirst outFmt false) cleaned <|>
          dateFnsParse refYear (compactSecond outFmt false) cleaned
      else none)
    else none)
  match p3 with
  | some dt => manualDateFormat outFmt dt
  | none => []

/-- Specification-side formulation of the same coercion, written as the
spec's ordered list of attempts: ISO `yyyy-MM-dd` first, then the fixed list
of common locale formats, then, when the cleaned value is all digits of
length 8 or 6, the two compact orderings biased toward the output date
format, and the empty string when every attempt fails. -/
def coerceDateSpec (removeMask : Bool) (orig : Str) (dfOpt : Option DateFormatT)
    (refYear : Nat) : Str :=
  let cleaned := dateCleanedValue removeMask orig
  let ds := jsTrim orig
  let outFmt := dfOpt.getD .ddmmyyyy
  let isoAttempt : List (Option YMD) :=
    [if isoPrefixOk ds then dateFnsParse refYear (fmtYYYYMMDDsep '-') (ds.take 10) else none]
  let localeAttempts := commonFormats.map fun f => dateFnsParse refYear f ds
  let compactAttempts : List (Option YMD) :=
    if !cleaned.isEmpty && cleaned.all isDigitC &&
        (cleaned.length = 8 || cleaned.length = 6) then
      [dateFnsParse refYear (compactFirst outFmt (cleaned.length = 8)) cleaned,
       dateFnsParse refYear (compactSecond outFmt (cleaned.length = 8)) cleaned]
    else []
  match firstSome (isoAttempt ++ localeAttempts ++ compactAttempts) with
  | some dt => manualDateFormat outFmt dt
  | none => []

theorem firstSome_append {α : Type} (l1 l2 : List (Option α)) :
    firstSome (l1 ++ l2) = (firstSome l1 <|> firstSome l2) := by
  induction l1 with
  | nil => simp [firstSome]
  | cons h t ih =>
    match h with
    | some a => simp [firstSome]
    | none => simpa [firstSome] using ih

/-- The code's chained `if`/loop structure and the specification's ordered
attempt list compute the same coercion for every cell. -/
theorem coerceDateCell_eq_spec (removeMask : Bool) (orig : Str)
    (dfOpt : Option DateFormatT) (refYear : Nat) :
    coerceDateCell removeMask orig dfOpt refYear =
      coerceDateSpec removeMask orig dfOpt refYear := by
  rw [coerceDateCell, coerceDateSpec]
  rw [firstSome_append, firstSome_append]
  congr 1
  set cleaned := dateCleanedValue removeMask orig
  set ds := jsTrim orig
  set outFmt := dfOpt.getD DateFormatT.ddmmyyyy
  set p1 : Option YMD :=
    if isoPrefixOk ds then dateFnsParse refYear (fmtYYYYMMDDsep '-') (ds.take 10) else none
    with hp1
  have hiso : firstSome [p1] = p1 := by
    cases p1 <;> rfl
  rw [hiso]
  congr 1
  have horElse : ∀ a b : Option YMD, (a <|> b) = firstSome [a, b] := by
    intro a b
    cases a <;> cases b <;> rfl
  by_cases hdig : (!cleaned.isEmpty && cleaned.all isDigitC) = true
  · by_cases h8 : cleaned.length = 8
    · simp [hdig, h8, horElse]
    · by_cases h6 : cleaned.length = 6
      · simp [hdig, h8, h6, horElse]
      · simp [hdig, h8, h6, firstSome]
  · simp [hdig, firstSome]

/-! ## Schema data model (part_001 lines 29-84) -/

/-- `type ColumnMapping` (the `length` member is renamed `alphaLength` to
keep it apart from the output fields' `length`). -/
structure ColumnMapping where
  originalHeader : Str
  mappedField : Option Str
  dataType : Option DataTypeV
  alphaLength : Option Nat
  removeMask : Bool
deriving DecidableEq

/-- `type CalculatedFieldType`. -/
inductive CalcType
  | startDate
  | situacaoRetorno
  | periodMMAAAA
deriving DecidableEq

/-- Discriminated part of `OutputFieldConfig`: mapped, static or calculated
(with the calculated variants' `requiredInputFields` and the two `parameters`
keys the source reads, `period` and `periodForMMAAAA`). -/
inductive FieldKind
  | mapped (fid : Str)
  | staticF (fieldName staticValue : Str)
  | calc (ty : CalcType) (fieldName : Str) (req : List Str)
      (paramPeriod : Option Str) (paramPeriodForMMAAAA : Option Str)
deriving DecidableEq

/-- Common part of `OutputFieldConfig`. -/
structure OutputField where
  id : Str
  order : Int
  length : Option Nat
  paddingChar : Option Char
  paddingDirection : Option PadDir
  dateFormat : Option DateFormatT
  isStaticFromPreset : Bool
  kind : FieldKind
deriving DecidableEq

/-- `type OutputConfig` (the encoding member is orchestration for the
external `iconv` call and is not modelled). -/
structure OutputConfigT where
  name : Option Str
  format : OutputFormat
  delimiter : Option Str
  fields : List OutputField
deriving DecidableEq

/-- One parsed data row: original header to cell text. -/
abbrev Row := List (Str × Str)

/-- JS `row[header]` (with `header in row` distinguished via `Option`). -/
def rowLookup (row : Row) (h : Str) : Option Str :=
  (row.find? (fun p => p.1 == h)).map (fun p => p.2)

def isStaticField (f : OutputField) : Bool :=
  match f.kind with
  | .staticF _ _ => true
  | _ => false

def isCalcField (f : OutputField) : Bool :=
  match f.kind with
  | .calc _ _ _ _ _ => true
  | _ => false

def isMappedField (f : OutputField) : Bool :=
  match f.kind with
  | .mapped _ => true
  | _ => false

/-- `field.mappedField` for mapped descriptors. -/
def mappedFidOf (f : OutputField) : Option Str :=
  match f.kind with
  | .mapped fid => some fid
  | _ => none

/-- The JS truthiness test `!f.isStatic && !f.isCalculated && f.mappedField`:
a mapped descriptor whose field id is a non-empty string. -/
def mappedFidTruthy (f : OutputField) : Option Str :=
  match f.kind with
  | .mapped fid => if fid.isEmpty then none else some fid
  | _ => none

def calcTypeOf (f : OutputField) : Option CalcType :=
  match f.kind with
  | .calc ty _ _ _ _ => some ty
  | _ => none

def calcReqOf (f : OutputField) : List Str :=
  match f.kind with
  | .calc _ _ req _ _ => req
  | _ => []

def staticValueOf (f : OutputField) : Str :=
  match f.kind with
  | .staticF _ v => v
  | _ => []

/-- `columnMappings.find(m => m.mappedField === fid)`. -/
def findMappingFor (mps : List ColumnMapping) (fid : Str) : Option ColumnMapping :=
  mps.find? (fun m => m.mappedField == some fid)

/-- `isNumericType` (part_001 line 294). -/
def isNumericType : Option DataTypeV → Bool
  | some .inteiro => true
  | some .numerico => true
  | some .cpf => true
  | some .cnpj => true
  | _ => false

/-- The regex test `/^-?\d+$/`. -/
def isIntLit (s : Str) : Bool :=
  match s with
  | '-' :: t => !t.isEmpty && t.all isDigitC
  | t => !t.isEmpty && t.all isDigitC

/-- `getDefaultPaddingChar` (part_001 lines 298-312). -/
def getDefaultPaddingChar (f : OutputField) (mps : List ColumnMapping) : Char :=
  match f.kind with
  | .staticF _ v => if isIntLit v then '0' else ' '
  | .calc ty _ _ _ _ =>
    match ty with
    | .periodMMAAAA => '0'
    | .startDate => '0'
    | .situacaoRetorno => ' '
  | .mapped fid =>
    if isNumericType ((findMappingFor mps fid).bind ColumnMapping.dataType) then '0' else ' '

/-- `getDefaultPaddingDirection` (part_001 lines 314-332). -/
def getDefaultPaddingDirection (f : OutputField) (mps : List ColumnMapping) : PadDir :=
  match f.kind with
  | .staticF _ v => if isIntLit v then PadDir.left else PadDir.right
  | .calc ty _ _ _ _ =>
    match ty with
    | .periodMMAAAA => PadDir.left
    | .startDate => PadDir.left
    | .situacaoRetorno => PadDir.right
  | .mapped fid =>
    if isNumericType ((findMappingFor mps fid).bind ColumnMapping.dataType) then PadDir.left
    else PadDir.right

/-- `getOutputFieldDataType` (the closure over `columnMappings`). -/
def getOutputFieldDataType (mps : List ColumnMapping) (f : OutputField) : EffDataType :=
  match f.kind with
  | .staticF _ _ => .nullT
  | .calc ty _ _ _ _ =>
    match ty with
    | .startDate => .det .dataT
    | .periodMMAAAA => .det .dataT
    | .situacaoRetorno => .det .alfanumerico
  | .mapped fid =>
    match (findMappingFor mps fid).bind ColumnMapping.dataType with
    | some t => .det t
    | none => .nullT

/-! ## Calculated-field evaluators (part_001 lines 1712-1797) -/

/-- JS `parseInt(s, 10)` on an all-digit string (`NaN` when empty). -/
def jsParseIntDigits (s : Str) : Option Nat :=
  if s.isEmpty then none else some (digitsToNat s)

/-- The currency/locale-noise cleaning of `CalculateSituacaoRetorno`:
`String(raw).replace(/[^\d.,-]/g, '').replace(',', '.')` (the second
`replace` affects only the first comma). -/
def situacaoClean (raw : Str) : Str :=
  jsReplaceFirstChar ',' '.'
    (raw.filter (fun c => isDigitC c || c = '.' || c = ',' || c = '-'))

/-- The flexible format list of `FormatPeriodMMAAAA`
(`['dd/MM/yyyy', 'MM/dd/yyyy', 'yyyy-MM-dd', 'yyyyMMdd', 'ddMMyyyy']`). -/
def periodCommonFormats : List (List FTok) :=
  [fmtDDMMYYYYsep '/', fmtMMDDYYYYsep '/', fmtYYYYMMDDsep '-',
   fmtCompactYYYYMMDD, fmtCompactDDMMYYYY]

/-- `calculateFieldValue`: the three derivation algorithms; non-calculated
fields resolve to the empty string, and every failure path degrades to the
empty string.  The source wraps the switch in try/catch; the reachable throw —
date-fns `format` raising `RangeError` when `subMonths` has left the JS `Date`
range — is the `subMonthsInRange` guard, every other path is total. -/
def calculateFieldValue (mps : List ColumnMapping) (today : YMD) (refYear : Nat)
    (f : OutputField) (row : Row) : Str :=
  match f.kind with
  | .mapped _ => []
  | .staticF _ _ => []
  | .calc ty _ req pPeriod pPeriodMM =>
    match ty with
    | .startDate =>
      let periodStr := pPeriod.getD []
      match req.head?.bind (fun fid => findMappingFor mps fid) with
      | none => []
      | some mp =>
        if periodStr.isEmpty then []
        else
          match dateFnsParse refYear (fmtDDMMYYYYsep '/') periodStr with
          | none => []
          | some p =>
            let raw := (rowLookup row mp.originalHeader).getD "0".data
            let n :=
              match jsParseIntDigits (removeMaskHelper raw (some .inteiro)) with
              | none => 0
              | some v => v
            if subMonthsInRange p n then
              if f.dateFormat = some DateFormatT.yyyymmdd then
                dateFnsFormatYYYYMMDD (subMonths p n)
              else dateFnsFormatDDMMYYYY (subMonths p n)
            else []
    | .situacaoRetorno =>
      match req.head?.bind (fun fid => findMappingFor mps fid) with
      | none => []
      | some mp =>
        let raw := (rowLookup row mp.originalHeader).getD "0".data
        match jsParseFloatPrefix (situacaoClean raw) with
        | some q => if 0 < q then "T".data else "R".data
        | none => "R".data
    | .periodMMAAAA =>
      let periodoMapping :=
        (req.find? (fun i => i == "periodo".data)).bind (fun fid => findMappingFor mps fid)
      match periodoMapping with
      | some mp =>
        let pv := (rowLookup row mp.originalHeader).getD []
        if pv.isEmpty then
          match pPeriodMM with
          | some ps =>
            if ps.isEmpty then dateFnsFormatMMyyyy today
            else
              match dateFnsParse refYear (fmtDDMMYYYYsep '/') ps with
              | some d => dateFnsFormatMMyyyy d
              | none => dateFnsFormatMMyyyy today
          | none => dateFnsFormatMMyyyy today
        else
          match firstSome (periodCommonFormats.map fun ft => dateFnsParse refYear ft pv) with
          | some d => dateFnsFormatMMyyyy d
          | none => dateFnsFormatMMyyyy today
      | none =>
        match pPeriodMM with
        | some ps =>
          if ps.isEmpty then dateFnsFormatMMyyyy today
          else
            match dateFnsParse refYear (fmtDDMMYYYYsep '/') ps with
            | some d => dateFnsFormatMMyyyy d
            | none => dateFnsFormatMMyyyy today
        | none => dateFnsFormatMMyyyy today

/-! ## Per-row value resolution and serialization (part_001 lines 1897-2164) -/

/-- Integer / CPF / CNPJ coercion of one cell: trim, optional mask removal,
and unconditional digit stripping in the unmasked path. -/
def coerceIntLikeCell (removeMask : Bool) (dt : DataTypeV) (orig : Str) : Str :=
  let value0 := jsTrim orig
  let value :=
    if removeMask && !value0.isEmpty then removeMaskHelper value0 (some dt) else value0
  if !removeMask && !value.isEmpty then value.filter isDigitC else value

/-- Coercion dispatch for a mapped cell per the mapping's data type
(the `switch (dataType)` of `convertFile`; `Alfanumérico` and a `null` type
pass the trimmed value through). -/
def coerceMappedCell (mapping : ColumnMapping) (dfOpt : Option DateFormatT)
    (refYear : Nat) (orig : Str) : Str :=
  match mapping.dataType with
  | some .cpf => coerceIntLikeCell mapping.removeMask .cpf orig
  | some .cnpj => coerceIntLikeCell mapping.removeMask .cnpj orig
  | some .inteiro => coerceIntLikeCell mapping.removeMask .inteiro orig
  | some .numerico => coerceNumericCell mapping.removeMask orig
  | some .dataT => coerceDateCell mapping.removeMask orig dfOpt refYear
  | some .alfanumerico =>
    let value := jsTrim orig
    if mapping.removeMask && !value.isEmpty then removeMaskHelper value (some .alfanumerico)
    else value
  | none => jsTrim orig

/-- Resolution of one output field against one row: static literal,
calculated value (with the source's re-validation of calculated `Data`
values), or mapped cell coercion; missing mappings or headers resolve to
the empty string. -/
def resolveValue (mps : List ColumnMapping) (today : YMD) (refYear : Nat)
    (hasFileData : Bool) (f : OutputField) (row : Row) : Str :=
  match f.kind with
  | .staticF _ sv => sv
  | .calc _ _ _ _ _ =>
    let v := calculateFieldValue mps today refYear f row
    if getOutputFieldDataType mps f = EffDataType.det .dataT ∧ ¬v.isEmpty ∧
        f.dateFormat.isSome then
      let testFmt :=
        if f.dateFormat = some DateFormatT.yyyymmdd then fmtCompactYYYYMMDD
        else fmtCompactDDMMYYYY
      match dateFnsParse refYear testFmt v with
      | some _ => v
      | none => []
    else v
  | .mapped fid =>
    match findMappingFor mps fid with
    | none => []
    | some mapping =>
      if mapping.originalHeader.isEmpty then []
      else if (rowLookup row mapping.originalHeader).isNone ∧ hasFileData then []
      else coerceMappedCell mapping f.dateFormat refYear
        ((rowLookup row mapping.originalHeader).getD [])

/-- Effective data type used by the fixed-width formatter, with the static
override by literal shape (part_001 lines 2066-2069). -/
def decBody (t : Str) : Bool :=
  let ds := t.takeWhile isDigitC
  !ds.isEmpty &&
    (match t.drop ds.length with
     | [] => true
     | '.' :: r => !r.isEmpty && r.all isDigitC
     | _ => false)

/-- The regex test `/^-?\d+(\.\d+)?$/`. -/
def isDecLit (s : Str) : Bool :=
  match s with
  | '-' :: t => decBody t
  | t => decBody t

def effTypeForTxt (mps : List ColumnMapping) (f : OutputField) : EffDataType :=
  match f.kind with
  | .staticF _ sv =>
    if isDecLit (jsReplaceFirstChar ',' '.' sv) then .det .numerico
    else if isIntLit sv then .det .inteiro
    else .det .alfanumerico
  | _ => getOutputFieldDataType mps f

/-- One formatted fixed-width field (`format === 'txt'` branch): missing
padding settings fall back to the type-based defaults. -/
def txtFieldOut (mps : List ColumnMapping) (f : OutputField) (value : Str) : Str :=
  formatFixedWidth (f.length.getD 0)
    (f.paddingChar.getD (getDefaultPaddingChar f mps))
    (f.paddingDirection.getD (getDefaultPaddingDirection f mps))
    (effTypeForTxt mps f) value

/-- `[...outputConfig.fields].sort((a, b) => a.order - b.order)`: JS `sort`
is stable, which insertion sort models extensionally. -/
def sortFieldsByOrder (l : List OutputField) : List OutputField :=
  List.insertionSort (fun a b => a.order ≤ b.order) l

/-- One physical fixed-width output line. -/
def convertRowTxt (mps : List ColumnMapping) (today : YMD) (refYear : Nat)
    (hasFileData : Bool) (sortedFields : List OutputField) (row : Row) : Str :=
  sortedFields.flatMap fun f =>
    txtFieldOut mps f (resolveValue mps today refYear hasFileData f row)

/-- One CSV field after the decimal-comma substitution and quoting. -/
def csvFieldOut (mps : List ColumnMapping) (delim : Str) (f : OutputField)
    (value : Str) : Str :=
  let v1 :=
    if getOutputFieldDataType mps f = EffDataType.det .numerico then
      jsReplaceFirstChar '.' ',' value
    else value
  csvProcessField delim v1

/-- One CSV output line, fields joined by the delimiter. -/
def convertRowCsv (mps : List ColumnMapping) (today : YMD) (refYear : Nat)
    (hasFileData : Bool) (delim : Str) (sortedFields : List OutputField)
    (row : Row) : Str :=
  List.intercalate delim (sortedFields.map fun f =>
    csvFieldOut mps delim f (resolveValue mps today refYear hasFileData f row))

/-- Full conversion to fixed-width text: sort fields, emit one
newline-terminated line per row (an empty table processes one synthetic
empty row), then `trimEnd()` the whole buffer. -/
def convertTxt (mps : List ColumnMapping) (today : YMD) (refYear : Nat)
    (fields : List OutputField) (rows : List Row) : Str :=
  let sorted := sortFieldsByOrder fields
  let dataToProcess := if rows.isEmpty then [[]] else rows
  let hasFileData := !rows.isEmpty
  jsTrimEnd ((dataToProcess.map fun row =>
    convertRowTxt mps today refYear hasFileData sorted row ++ ['\n'])).flatten

/-- Full conversion to delimited text. -/
def convertCsv (mps : List ColumnMapping) (today : YMD) (refYear : Nat)
    (delim : Str) (fields : List OutputField) (rows : List Row) : Str :=
  let sorted := sortFieldsByOrder fields
  let dataToProcess := if rows.isEmpty then [[]] else rows
  let hasFileData := !rows.isEmpty
  jsTrimEnd ((dataToProcess.map fun row =>
    convertRowCsv mps today refYear hasFileData delim sorted row ++ ['\n'])).flatten

/-! ## Output-schema mutations (part_001 lines 1188-1221) -/

/-- Placeholder used to totalize list indexing where the source has already
established the index is in bounds. -/
def dummyField : OutputField := ⟨[], 0, none, none, none, none, false, .mapped []⟩

/-- `.map((f, idx) => ({ ...f, order: idx }))`. -/
def renumberFrom (i : Int) : List OutputField → List OutputField
  | [] => []
  | f :: t => { f with order := i } :: renumberFrom (i + 1) t

def renumber (l : List OutputField) : List OutputField := renumberFrom 0 l

/-- `removeOutputField`: filter out the id, re-sort by order, renumber. -/
def removeOutputField (idToRemove : Str) (cfg : OutputConfigT) : OutputConfigT :=
  { cfg with
    fields := renumber (sortFieldsByOrder
      (cfg.fields.filter fun f => !(f.id == idToRemove))) }

inductive MoveDir
  | up
  | down
deriving DecidableEq

/-- `moveField`: swap the `order` values of the field and its neighbour,
re-sort, renumber; out-of-range moves leave the config unchanged. -/
def moveField (i : Str) (dir : MoveDir) (cfg : OutputConfigT) : OutputConfigT :=
  match cfg.fields.findIdx? (fun f => f.id == i) with
  | none => cfg
  | some ci =>
    let ti : Int := if dir = MoveDir.up then (ci : Int) - 1 else (ci : Int) + 1
    if ti < 0 ∨ (cfg.fields.length : Int) ≤ ti then cfg
    else
      let a := cfg.fields.getD ci dummyField
      let b := cfg.fields.getD ti.toNat dummyField
      let fields2 := (cfg.fields.set ci { a with order := b.order }).set ti.toNat
        { b with order := a.order }
      { cfg with fields := renumber (sortFieldsByOrder fields2) }

/-! ## Schema reconciliation (part_001 lines 1556-1709)

The `useEffect` body that re-synchronizes the output schema with the column
mappings, modelled as the pure updater passed to `setOutputConfig`. The
`Date.now()` in generated ids is a parameter `now`. -/

/-- Generated id for a newly created mapped descriptor. -/
def genMappedId (now : Nat) (fid : Str) : Str :=
  "mapped-".data ++ fid ++ "-".data ++ natToDigits now

/-- `prevConfig.fields.find(f => !f.isStatic && !f.isCalculated &&
f.mappedField === m.mappedField)`. -/
def findExistingMapped (fields : List OutputField) (fid : Str) : Option OutputField :=
  fields.find? (fun f => mappedFidOf f == some fid)

/-- The throwaway descriptor the source passes to the default-padding
helpers while building a potential mapped field. -/
def mappedStub (fid : Str) : OutputField :=
  ⟨[], 0, none, none, none, none, false, .mapped fid⟩

/-- One entry of `potentialMappedFields` (lines 1568-1596): formatting comes
from the existing descriptor when there is one, defaults otherwise; the
fixed-width-only members exist only under the `txt` format, `dateFormat`
only for `Data`-typed mappings. -/
def mkPotential (now : Nat) (fmt : OutputFormat) (mps : List ColumnMapping)
    (fields : List OutputField) (m : ColumnMapping) (index : Nat) : OutputField :=
  let fid := m.mappedField.getD []
  let dt := m.dataType
  let exf := findExistingMapped fields fid
  { id := (exf.map OutputField.id).getD (genMappedId now fid)
    order := (exf.map OutputField.order).getD ((fields.length : Int) + index)
    length :=
      if fmt = OutputFormat.txt then
        some ((exf.bind OutputField.length).getD
          (if dt = some DataTypeV.alfanumerico then m.alphaLength.getD 10 else 10))
      else none
    paddingChar :=
      if fmt = OutputFormat.txt then
        some ((exf.bind OutputField.paddingChar).getD
          (getDefaultPaddingChar (mappedStub fid) mps))
      else none
    paddingDirection :=
      if fmt = OutputFormat.txt then
        some ((exf.bind OutputField.paddingDirection).getD
          (getDefaultPaddingDirection (mappedStub fid) mps))
      else none
    dateFormat :=
      if dt = some DataTypeV.dataT then
        some ((exf.bind OutputField.dateFormat).getD DateFormatT.ddmmyyyy)
      else none
    isStaticFromPreset := (exf.map OutputField.isStaticFromPreset).getD false
    kind := .mapped fid }

/-- The duplicate-merge branch of the `uniqueMappedFieldsMap` pass
(lines 1608-1628): refresh `dateFormat` per the current mapping's type, then
add or strip the fixed-width members per the format. -/
def mergeMapped (fmt : OutputFormat) (mps : List ColumnMapping) (fid : Str)
    (ex : OutputField) : OutputField :=
  let cm := findMappingFor mps fid
  let dt := cm.bind ColumnMapping.dataType
  let ex1 :=
    { ex with
      dateFormat :=
        if dt = some DataTypeV.dataT then some (ex.dateFormat.getD DateFormatT.ddmmyyyy)
        else none }
  if fmt = OutputFormat.txt then
    { ex1 with
      length := some (ex1.length.getD
        (if dt = some DataTypeV.alfanumerico then (cm.bind ColumnMapping.alphaLength).getD 10
         else 10))
      paddingChar := some (ex1.paddingChar.getD (getDefaultPaddingChar ex1 mps))
      paddingDirection := some (ex1.paddingDirection.getD (getDefaultPaddingDirection ex1 mps)) }
  else { ex1 with length := none, paddingChar := none, paddingDirection := none }

/-- Association list modelling the insertion-ordered JS `Map`. -/
abbrev FieldMap := List (Str × OutputField)

def lookupFM (m : FieldMap) (k : Str) : Option OutputField :=
  (m.find? (fun p => p.1 == k)).map (fun p => p.2)

/-- JS `map.set(k, v)`: update in place when the key exists (keeping its
insertion position), append otherwise. -/
def setFM (m : FieldMap) (k : Str) (v : OutputField) : FieldMap :=
  if (m.find? (fun p => p.1 == k)).isSome then
    m.map (fun p => if p.1 == k then (k, v) else p)
  else m ++ [(k, v)]

/-- One step of the first pass over `prevConfig.fields` seeding
`uniqueMappedFieldsMap`: record a mapped descriptor under its (truthy)
field id, skip everything else. -/
def seedStep (acc : FieldMap) (f : OutputField) : FieldMap :=
  match mappedFidTruthy f with
  | some fid => setFM acc fid f
  | none => acc

/-- First pass over `prevConfig.fields` seeding `uniqueMappedFieldsMap`. -/
def seedMap (fields : List OutputField) : FieldMap :=
  fields.foldl seedStep []

/-- Second pass: fold one potential mapped field into the map — append when
its (truthy) field id is new, merge when it already exists; entries with a
falsy `mappedField` are skipped by the source's truthiness guards. -/
def applyPotential (fmt : OutputFormat) (mps : List ColumnMapping)
    (acc : FieldMap) (f : OutputField) : FieldMap :=
  match mappedFidTruthy f with
  | none => acc
  | some fid =>
    match lookupFM acc fid with
    | none => acc ++ [(fid, f)]
    | some ex => setFM acc fid (mergeMapped fmt mps fid ex)

/-- `existingFieldsMap.get(id)`: the JS `Map` built with `set` keeps the
last value written for a duplicated id. -/
def lookupLastById (fields : List OutputField) (i : Str) : Option OutputField :=
  (fields.filter (fun f => f.id == i)).getLast?

/-- Static-descriptor refresh (lines 1632-1651). -/
def normStatic (fmt : OutputFormat) (mps : List ColumnMapping)
    (orig : Option OutputField) (f : OutputField) : OutputField :=
  if fmt = OutputFormat.txt then
    { f with
      length := some ((f.length <|> orig.bind OutputField.length).getD
        (staticValueOf f).length)
      paddingChar := some ((f.paddingChar <|> orig.bind OutputField.paddingChar).getD
        (getDefaultPaddingChar f mps))
      paddingDirection := some ((f.paddingDirection <|> orig.bind OutputField.paddingDirection).getD
        (getDefaultPaddingDirection f mps)) }
  else { f with length := none, paddingChar := none, paddingDirection := none }

/-- Per-algorithm default fixed length for calculated descriptors. -/
def defaultCalcLenOpt : Option CalcType → Nat
  | some .startDate => 8
  | some .periodMMAAAA => 6
  | some .situacaoRetorno => 1
  | none => 10

/-- Calculated-descriptor refresh (lines 1653-1678): formatting members per
format, and a `dateFormat` default for the date-producing algorithms
(`CalculateSituacaoRetorno` keeps whatever `dateFormat` it has — the
source's `delete` arm excludes it). -/
def normCalc (fmt : OutputFormat) (mps : List ColumnMapping)
    (orig : Option OutputField) (f : OutputField) : OutputField :=
  let base :=
    if fmt = OutputFormat.txt then
      { f with
        length := some ((f.length <|> orig.bind OutputField.length).getD
          (defaultCalcLenOpt (calcTypeOf f)))
        paddingChar := some ((f.paddingChar <|> orig.bind OutputField.paddingChar).getD
          (getDefaultPaddingChar f mps))
        paddingDirection := some ((f.paddingDirection <|> orig.bind OutputField.paddingDirection).getD
          (getDefaultPaddingDirection f mps)) }
    else { f with length := none, paddingChar := none, paddingDirection := none }
  match calcTypeOf f with
  | some CalcType.startDate =>
    { base with dateFormat := some ((f.dateFormat <|> orig.bind OutputField.dateFormat).getD
        DateFormatT.ddmmyyyy) }
  | some CalcType.periodMMAAAA =>
    { base with dateFormat := some ((f.dateFormat <|> orig.bind OutputField.dateFormat).getD
        DateFormatT.ddmmyyyy) }
  | _ => base

/-- First descriptor filter (lines 1686-1689): a mapped descriptor survives
only if some column mapping still carries its field id. -/
def keepFilter1 (mps : List ColumnMapping) (f : OutputField) : Bool :=
  match f.kind with
  | .staticF _ _ => true
  | .calc _ _ _ _ _ => true
  | .mapped fid => mps.any (fun cm => cm.mappedField == some fid)

/-- Second descriptor filter (lines 1690-1692): a calculated descriptor
survives only if each required field id is still mapped — except
`FormatPeriodMMAAAA`, which may fall back to the current date. -/
def keepFilter2 (mps : List ColumnMapping) (f : OutputField) : Bool :=
  match f.kind with
  | .calc ty _ req _ _ =>
    req.all (fun r => mps.any (fun cm => cm.mappedField == some r)) ||
      ty == CalcType.periodMMAAAA
  | _ => true

/-- The full reconciliation of the fields list: rebuild the unique mapped
descriptors, refresh static and calculated descriptors, drop orphans, then
re-sort by `order` and renumber densely. -/
def reconcileFields (now : Nat) (fmt : OutputFormat) (mps : List ColumnMapping)
    (fields : List OutputField) : List OutputField :=
  let filteredMps := mps.filter (fun m => m.mappedField.isSome)
  let potential := (filteredMps.zip (List.range filteredMps.length)).map
    (fun p => mkPotential now fmt mps fields p.1 p.2)
  let map2 := potential.foldl (applyPotential fmt mps) (seedMap fields)
  let uniqueMapped := map2.map Prod.snd
  let statics := (fields.filter isStaticField).map
    (fun f => normStatic fmt mps (lookupLastById fields f.id) f)
  let calcs := (fields.filter isCalcField).map
    (fun f => normCalc fmt mps (lookupLastById fields f.id) f)
  let combined := statics ++ calcs ++ uniqueMapped
  renumber (sortFieldsByOrder ((combined.filter (keepFilter1 mps)).filter (keepFilter2 mps)))

/-- The reconciliation step on a whole config: recompute the fields and
return the previous object unchanged when nothing changed (`hasChanged`). -/
def reconcile (now : Nat) (mps : List ColumnMapping) (cfg : OutputConfigT) : OutputConfigT :=
  let nf := reconcileFields now cfg.format mps cfg.fields
  if cfg.fields = nf then cfg else { cfg with fields := nf }

/-- The dense-order invariant: each field's `order` equals its position. -/
def OrdersDense (l : List OutputField) : Prop :=
  l.map OutputField.order = (List.range l.length).map (fun k : Nat => (k : Int))

instance (l : List OutputField) : Decidable (OrdersDense l) := by
  unfold OrdersDense
  infer_instance

/-! ## Supporting lemmas for the claims -/

theorem dateFnsParse_valid {refYear : Nat} {toks : List FTok} {s : Str}
    {d : YMD} (h : dateFnsParse refYear toks s = some d) : validYMD d = true := by
  rw [dateFnsParse] at h
  split at h
  · split at h
    · simp at h
      subst h
      assumption
    · simp at h
  · simp at h

theorem subMonths_zero (d : YMD) (h : validYMD d = true) : subMonths d 0 = d := by
  obtain ⟨y, m, dd⟩ := d
  simp only [validYMD, Bool.and_eq_true, decide_eq_true_eq] at h
  obtain ⟨⟨⟨h1, h2⟩, h3⟩, h4⟩ := h
  simp only [subMonths]
  have he : (y * 12 + (m : Int) - 1 - ((0 : Nat) : Int)) / 12 = y := by
    omega
  have hm : ((y * 12 + (m : Int) - 1 - ((0 : Nat) : Int)) % 12).toNat + 1 = m := by
    omega
  rw [he, hm]
  rw [min_eq_left h4]

/-- The number the `Numérico` case hands to `toFixed(2)`, when the cleaned
candidate matches the numeric-literal regex and parses. -/
def numericParsed (removeMask : Bool) (orig : Str) : Option ℚ :=
  (jsNumMatch (numericCleaned removeMask orig)).bind jsParseFloatPrefix

theorem coerceNumericCell_shape (rm : Bool) (orig : Str)
    (hq : ∀ q : ℚ, numericParsed rm orig = some q → |q| < toFixedBigBound) :
    matchesNumShape (coerceNumericCell rm orig) = true := by
  simp only [coerceNumericCell]
  cases h : jsNumMatch (numericCleaned rm orig) with
  | none =>
    show matchesNumShape
      (if numericPreValue rm orig = [] ∨ numericPreValue rm orig = ['0'] ∨
          numericPreValue rm orig = ['-'] then "0.00".data else "0.00".data) = true
    split
    · decide
    · decide
  | some m =>
    show matchesNumShape
      (match jsParseFloatPrefix m with
       | some q => toFixed2 q
       | none => "0.00".data) = true
    cases hp : jsParseFloatPrefix m with
    | none => decide
    | some q =>
      refine matchesNumShape_toFixed2 q (hq q ?_)
      rw [numericParsed, h]
      exact hp

theorem coerceNumericCell_fallback (rm : Bool) (orig : Str)
    (h : jsNumMatch (numericCleaned rm orig) = none) :
    coerceNumericCell rm orig = "0.00".data := by
  simp only [coerceNumericCell, h]
  split <;> rfl

/-! ## Claim theorems -/

/-- Claim C1: in a fixed-width (`txt`) conversion, every output field with a
configured length greater than zero formats every resolved input value to a
string of exactly `length` characters — the defensive re-clamp after padding
guarantees this even when padding or the decimal-point re-insertion for
zero-padded `Numérico` values overflows the target length. -/
theorem claim_C1_fixed_width_exact_length (len : Nat) (padChar : Char)
    (padDir : PadDir) (eff : EffDataType) (value : Str) (hlen : 0 < len) :
    (formatFixedWidth len padChar padDir eff value).length = len :=
  length_formatFixedWidth len padChar padDir eff value hlen

/-- Witness for C1 at a concrete input whose decimal-point re-insertion
overflows the target length. -/
theorem claim_C1_witness :
    0 < 10 ∧
      (formatFixedWidth 10 '0' PadDir.left (EffDataType.det .numerico)
        "-1.23".data).length = 10 :=
  ⟨by decide,
   claim_C1_fixed_width_exact_length 10 '0' PadDir.left (EffDataType.det .numerico)
     "-1.23".data (by decide)⟩

/-- Claim C2 (corrected): a cell coerced under the `Numérico` data type yields
a string matching `^-?\d+\.\d{2}$` whenever the parsed magnitude stays below
`toFixed`'s `10^21` fixed-notation threshold, and when the cleaned candidate
fails the numeric-literal match (which covers empty and unparseable input) the
result is exactly `"0.00"`.  The original universal claim is false: at
magnitudes of `10^21` and above, `toFixed(2)` falls back to `Number::toString`
and the program emits exponential notation such as `"1e+21"`
(see the counterexample). -/
theorem claim_C2_numeric_shape (rm : Bool) (orig : Str)
    (hq : ∀ q : ℚ, numericParsed rm orig = some q → |q| < toFixedBigBound) :
    matchesNumShape (coerceNumericCell rm orig) = true ∧
      (jsNumMatch (numericCleaned rm orig) = none →
        coerceNumericCell rm orig = "0.00".data) :=
  ⟨coerceNumericCell_shape rm orig hq, coerceNumericCell_fallback rm orig⟩

/-- Counterexample refuting C2 as originally stated: the 22-digit Numérico
cell `"1000000000000000000000"` (`10^21`, exactly representable as a double)
parses to `1e21`; `toFixed(2)` is then in its `ToString` fallback and the
program emits `"1e+21"`, which does not match `^-?\d+\.\d{2}$`. -/
theorem claim_C2_counterexample :
    coerceNumericCell false "1000000000000000000000".data = "1e+21".data ∧
      matchesNumShape "1e+21".data = false := by
  constructor
  · decide
  · decide

/-- Witness for C2: a parsed in-threshold cell keeps the two-decimal shape,
and an unparseable cell falls back to exactly `"0.00"`. -/
theorem claim_C2_witness :
    matchesNumShape (coerceNumericCell false "R$ 1.234,56".data) = true ∧
      coerceNumericCell false "abc".data = "0.00".data :=
  ⟨(claim_C2_numeric_shape false "R$ 1.234,56".data (fun q hq => by
      rw [show numericParsed false "R$ 1.234,56".data = some (mkRat 123456 100) from
        by decide] at hq
      rw [← Option.some.inj hq]
      decide)).1,
   (claim_C2_numeric_shape false "abc".data (fun q hq => by
      rw [show numericParsed false "abc".data = none from by decide] at hq
      exact Option.noConfusion hq)).2 (by decide)⟩

/-- Claim C3: in delimited output a field value is wrapped in double quotes
with every embedded quote doubled exactly when it contains the active
delimiter, a quote character, or a newline; otherwise it is emitted
unchanged and unquoted. -/
theorem claim_C3_csv_quoting (delim v : Str) :
    (containsSpecial delim v →
      csvProcessField delim v = '"' :: doubleQuotes v ++ ['"']) ∧
      (¬containsSpecial delim v → csvProcessField delim v = v) := by
  constructor
  · intro h
    rw [csvProcessField, if_pos ((csvNeedsQuotes_iff delim v).mpr h)]
    rw [jsReplaceAllQuote_eq_doubleQuotes]
  · intro h
    rw [csvProcessField, if_neg]
    intro hc
    exact h ((csvNeedsQuotes_iff delim v).mp hc)

/-- Witness for C3 on a value containing the delimiter. -/
theorem claim_C3_witness :
    csvProcessField ";".data "a;b".data =
        '"' :: doubleQuotes "a;b".data ++ ['"'] ∧
      csvProcessField ";".data "ab".data = "ab".data :=
  ⟨(claim_C3_csv_quoting ";".data "a;b".data).1 (by decide),
   (claim_C3_csv_quoting ";".data "ab".data).2 (by decide)⟩

/-- Claim C5: the `Data` coercion of a cell never throws (it is a total
function) and equals the specification's ordered attempt chain — ISO
`yyyy-MM-dd` first, then the fixed list of common locale formats, then, when
the cleaned value is purely digits of length 8 or 6, both compact orderings
biased toward the requested output date format, and the empty string on
total parse failure. -/
theorem claim_C5_date_chain (removeMask : Bool) (orig : Str)
    (dfOpt : Option DateFormatT) (refYear : Nat) :
    coerceDateCell removeMask orig dfOpt refYear =
      coerceDateSpec removeMask orig dfOpt refYear :=
  coerceDateCell_eq_spec removeMask orig dfOpt refYear

theorem calculateFieldValue_situacao (mps : List ColumnMapping) (today : YMD)
    (refYear : Nat) (nm : Str) (fid : Str) (reqRest : List Str)
    (pp ppm : Option Str) (fobj : OutputField) (row : Row)
    (hk : fobj.kind = FieldKind.calc CalcType.situacaoRetorno nm (fid :: reqRest) pp ppm)
    (mp : ColumnMapping) (hmp : findMappingFor mps fid = some mp) :
    calculateFieldValue mps today refYear fobj row =
      match jsParseFloatPrefix (situacaoClean
          ((rowLookup row mp.originalHeader).getD "0".data)) with
      | some q => if 0 < q then "T".data else "R".data
      | none => "R".data := by
  simp only [calculateFieldValue, hk, List.head?_cons, Option.some_bind, hmp]

/-- Claim C8: the `CalculateSituacaoRetorno` evaluator parses the mapped
realized-value cell as a signed decimal after stripping currency/locale
noise, emits exactly `"T"` when the parsed number is strictly positive, and
exactly `"R"` in every other case (zero, negative, or unparseable). -/
theorem claim_C8_situation_code (mps : List ColumnMapping) (today : YMD)
    (refYear : Nat) (nm : Str) (fid : Str) (reqRest : List Str)
    (pp ppm : Option Str) (fobj : OutputField) (row : Row)
    (hk : fobj.kind = FieldKind.calc CalcType.situacaoRetorno nm (fid :: reqRest) pp ppm)
    (mp : ColumnMapping) (hmp : findMappingFor mps fid = some mp) :
    (calculateFieldValue mps today refYear fobj row = "T".data ∨
      calculateFieldValue mps today refYear fobj row = "R".data) ∧
    (calculateFieldValue mps today refYear fobj row = "T".data ↔
      ∃ q, jsParseFloatPrefix (situacaoClean
        ((rowLookup row mp.originalHeader).getD "0".data)) = some q ∧ 0 < q) := by
  rw [calculateFieldValue_situacao mps today refYear nm fid reqRest pp ppm fobj row hk mp hmp]
  cases hq : jsParseFloatPrefix (situacaoClean
      ((rowLookup row mp.originalHeader).getD "0".data)) with
  | none =>
    show ("R".data = "T".data ∨ "R".data = "R".data) ∧
      ("R".data = "T".data ↔ ∃ q, (none : Option ℚ) = some q ∧ 0 < q)
    refine ⟨Or.inr rfl, ?_, ?_⟩
    · intro habs
      exact absurd habs (by decide)
    · rintro ⟨q, hq2, _⟩
      simp at hq2
  | some q =>
    show ((if 0 < q then "T".data else "R".data) = "T".data ∨
        (if 0 < q then "T".data else "R".data) = "R".data) ∧
      ((if 0 < q then "T".data else "R".data) = "T".data ↔
        ∃ q2, (some q : Option ℚ) = some q2 ∧ 0 < q2)
    by_cases h0 : 0 < q
    · rw [if_pos h0]
      exact ⟨Or.inl rfl, fun _ => ⟨q, rfl, h0⟩, fun _ => rfl⟩
    · rw [if_neg h0]
      refine ⟨Or.inr rfl, ?_, ?_⟩
      · intro habs
        exact absurd habs (by decide)
      · rintro ⟨q2, hq2, h02⟩
        simp at hq2
        subst hq2
        exact absurd h02 h0

/-- Witness for C8: a realized value of `150.00` yields `"T"`. -/
theorem claim_C8_witness :
    calculateFieldValue
        [⟨"VAL".data, some "valor_realizado".data, some DataTypeV.numerico, none, false⟩]
        ⟨2026, 1, 1⟩ 2026
        ⟨"c1".data, 0, some 1, some ' ', some PadDir.right, none, false,
          FieldKind.calc CalcType.situacaoRetorno "Sit".data
            ["valor_realizado".data] none none⟩
        [("VAL".data, "150.00".data)] = "T".data := by
  have h := claim_C8_situation_code
    [⟨"VAL".data, some "valor_realizado".data, some DataTypeV.numerico, none, false⟩]
    ⟨2026, 1, 1⟩ 2026 "Sit".data "valor_realizado".data [] none none
    ⟨"c1".data, 0, some 1, some ' ', some PadDir.right, none, false,
      FieldKind.calc CalcType.situacaoRetorno "Sit".data
        ["valor_realizado".data] none none⟩
    [("VAL".data, "150.00".data)] rfl
    ⟨"VAL".data, some "valor_realizado".data, some DataTypeV.numerico, none, false⟩
    (by decide)
  exact h.2.mpr ⟨mkRat 150 1, by decide, by decide⟩

/-- The installments-paid count the StartDate evaluator derives from a row:
mask-stripped cell parsed with `parseInt`, `NaN` (and the unreachable
negative case) coerced to zero. -/
def parcelasCount (mp : ColumnMapping) (row : Row) : Nat :=
  (jsParseIntDigits (removeMaskHelper ((rowLookup row mp.originalHeader).getD "0".data)
    (some DataTypeV.inteiro))).getD 0

theorem calculateFieldValue_startDate (mps : List ColumnMapping) (today : YMD)
    (refYear : Nat) (nm : Str) (fid : Str) (reqRest : List Str)
    (periodStr : Str) (ppm : Option Str) (fobj : OutputField) (row : Row)
    (hk : fobj.kind = FieldKind.calc CalcType.startDate nm (fid :: reqRest)
      (some periodStr) ppm)
    (mp : ColumnMapping) (hmp : findMappingFor mps fid = some mp)
    (p : YMD) (hp : dateFnsParse refYear (fmtDDMMYYYYsep '/') periodStr = some p) :
    calculateFieldValue mps today refYear fobj row =
      if subMonthsInRange p (parcelasCount mp row) then
        if fobj.dateFormat = some DateFormatT.yyyymmdd then
          dateFnsFormatYYYYMMDD (subMonths p (parcelasCount mp row))
        else dateFnsFormatDDMMYYYY (subMonths p (parcelasCount mp row))
      else [] := by
  have hne : periodStr ≠ [] := by
    intro habs
    rw [habs] at hp
    simp [dateFnsParse, runToks, takeUpToDigits, fmtDDMMYYYYsep] at hp
  have hemp : periodStr.isEmpty = false := by
    cases periodStr with
    | nil => exact absurd rfl hne
    | cons a t => rfl
  simp only [calculateFieldValue, hk, List.head?_cons, Option.some_bind, hmp,
    Option.getD_some, hemp, Bool.false_eq_true, if_false, hp]
  have hcount : (match jsParseIntDigits (removeMaskHelper
      ((rowLookup row mp.originalHeader).getD "0".data) (some DataTypeV.inteiro)) with
      | none => 0
      | some v => v) = parcelasCount mp row := by
    rw [parcelasCount]
    cases jsParseIntDigits (removeMaskHelper
      ((rowLookup row mp.originalHeader).getD "0".data) (some DataTypeV.inteiro)) <;> rfl
  rw [hcount]

/-- Claim C9 (corrected): the `CalculateStartDate` evaluator returns the
reference period minus the mapped installments-paid count in months, formatted
per the descriptor's date format, provided the computed date stays inside the
JS `Date` range (±100,000,000 days); an installments count large enough to
leave that range makes date-fns `format` throw `RangeError` and the evaluator's
`catch` return the empty string instead (see the counterexample).  An input
whose mask-stripped cell has no digits parses as `NaN` and is coerced to zero,
so the result then equals the reference period itself. -/
theorem claim_C9_start_date (mps : List ColumnMapping) (today : YMD)
    (refYear : Nat) (nm : Str) (fid : Str) (reqRest : List Str)
    (periodStr : Str) (ppm : Option Str) (fobj : OutputField) (row : Row)
    (hk : fobj.kind = FieldKind.calc CalcType.startDate nm (fid :: reqRest)
      (some periodStr) ppm)
    (mp : ColumnMapping) (hmp : findMappingFor mps fid = some mp)
    (p : YMD) (hp : dateFnsParse refYear (fmtDDMMYYYYsep '/') periodStr = some p)
    (hrange : subMonthsInRange p (parcelasCount mp row) = true) :
    calculateFieldValue mps today refYear fobj row =
      (if fobj.dateFormat = some DateFormatT.yyyymmdd then
        dateFnsFormatYYYYMMDD (subMonths p (parcelasCount mp row))
      else dateFnsFormatDDMMYYYY (subMonths p (parcelasCount mp row))) ∧
    (removeMaskHelper ((rowLookup row mp.originalHeader).getD "0".data)
        (some DataTypeV.inteiro) = [] →
      calculateFieldValue mps today refYear fobj row =
        (if fobj.dateFormat = some DateFormatT.yyyymmdd then dateFnsFormatYYYYMMDD p
         else dateFnsFormatDDMMYYYY p)) := by
  have hmain := calculateFieldValue_startDate mps today refYear nm fid reqRest
    periodStr ppm fobj row hk mp hmp p hp
  rw [hmain, if_pos hrange]
  refine ⟨rfl, fun hnil => ?_⟩
  have hcount : parcelasCount mp row = 0 := by
    rw [parcelasCount, hnil]
    rfl
  rw [hcount, subMonths_zero p (dateFnsParse_valid hp)]

/-- Counterexample refuting C9 as originally stated: a 10-digit installments
cell subtracts about 833 million years' worth of months, the computed date
falls far outside the JS `Date` range, date-fns `format` throws `RangeError`,
and the evaluator returns the empty string — not the formatted computed
date. -/
theorem claim_C9_counterexample :
    calculateFieldValue
        [⟨"PARC".data, some "parcelas_pagas".data, some DataTypeV.inteiro, none, false⟩]
        ⟨2026, 1, 1⟩ 2026
        ⟨"c9x".data, 0, some 8, some '0', some PadDir.left, some DateFormatT.ddmmyyyy, false,
          FieldKind.calc CalcType.startDate "Ini".data ["parcelas_pagas".data]
            (some "31/12/2024".data) none⟩
        [("PARC".data, "9999999999".data)] = [] := by
  decide

/-- Witness for C9: reference period `31/12/2024` and `6` installments paid
yield `30/06/2024`, i.e. `"30062024"` under `DDMMYYYY`. -/
theorem claim_C9_witness :
    calculateFieldValue
        [⟨"PARC".data, some "parcelas_pagas".data, some DataTypeV.inteiro, none, false⟩]
        ⟨2026, 1, 1⟩ 2026
        ⟨"c2".data, 0, some 8, some '0', some PadDir.left, some DateFormatT.ddmmyyyy, false,
          FieldKind.calc CalcType.startDate "Ini".data ["parcelas_pagas".data]
            (some "31/12/2024".data) none⟩
        [("PARC".data, "6".data)] = "30062024".data := by
  have h := claim_C9_start_date
    [⟨"PARC".data, some "parcelas_pagas".data, some DataTypeV.inteiro, none, false⟩]
    ⟨2026, 1, 1⟩ 2026 "Ini".data "parcelas_pagas".data [] "31/12/2024".data none
    ⟨"c2".data, 0, some 8, some '0', some PadDir.left, some DateFormatT.ddmmyyyy, false,
      FieldKind.calc CalcType.startDate "Ini".data ["parcelas_pagas".data]
        (some "31/12/2024".data) none⟩
    [("PARC".data, "6".data)] rfl
    ⟨"PARC".data, some "parcelas_pagas".data, some DataTypeV.inteiro, none, false⟩
    (by decide) ⟨2024, 12, 31⟩ (by decide) (by decide)
  rw [h.1]
  decide

theorem length_renumberFrom (i : Int) (l : List OutputField) :
    (renumberFrom i l).length = l.length := by
  induction l generalizing i with
  | nil => rfl
  | cons f t ih => simp [renumberFrom, ih]

theorem map_order_renumberFrom (i : Int) (l : List OutputField) :
    (renumberFrom i l).map OutputField.order =
      (List.range l.length).map (fun k : Nat => i + (k : Int)) := by
  induction l generalizing i with
  | nil => simp [renumberFrom]
  | cons f t ih =>
    rw [renumberFrom, List.map_cons, ih, List.length_cons, List.range_succ_eq_map,
      List.map_cons, List.map_map]
    congr 1
    · simp
    · apply List.map_congr_left
      intro k _
      simp
      ring

theorem ordersDense_renumber (l : List OutputField) : OrdersDense (renumber l) := by
  rw [OrdersDense, renumber, map_order_renumberFrom, length_renumberFrom]
  apply List.map_congr_left
  intro k _
  simp

theorem ordersDense_reconcileFields (now : Nat) (fmt : OutputFormat)
    (mps : List ColumnMapping) (fields : List OutputField) :
    OrdersDense (reconcileFields now fmt mps fields) := by
  rw [reconcileFields]
  exact ordersDense_renumber _

/-- Claim C10: every operation that mutates the output schema's field list —
removing a field, moving a field up or down, and schema reconciliation —
preserves the invariant that field `order` values are dense and gapless
`0..n-1`, agreeing with array positions. -/
theorem claim_C10_dense_orders (cfg : OutputConfigT) (i : Str) (dir : MoveDir)
    (now : Nat) (mps : List ColumnMapping) (h : OrdersDense cfg.fields) :
    OrdersDense (removeOutputField i cfg).fields ∧
      OrdersDense (moveField i dir cfg).fields ∧
      OrdersDense (reconcile now mps cfg).fields := by
  refine ⟨ordersDense_renumber _, ?_, ?_⟩
  · simp only [moveField]
    cases hidx : cfg.fields.findIdx? (fun f => f.id == i) with
    | none => exact h
    | some ci =>
      split
      · exact h
      · split
        · split
          · exact h
          · exact ordersDense_renumber _
        · split
          · exact h
          · exact ordersDense_renumber _
  · simp only [reconcile]
    split
    · rename_i h2
      rw [OrdersDense] at h ⊢
      rw [h2]
      exact ordersDense_reconcileFields now cfg.format mps cfg.fields
    · exact ordersDense_reconcileFields now cfg.format mps cfg.fields

/-- Witness for C10 on a concrete two-field schema. -/
theorem claim_C10_witness :
    OrdersDense
        (OutputConfigT.fields ⟨none, OutputFormat.txt, none,
          [⟨"a".data, 0, some 2, some ' ', some PadDir.right, none, false,
            FieldKind.staticF "A".data "x".data⟩,
           ⟨"b".data, 1, some 3, some '0', some PadDir.left, none, false,
            FieldKind.staticF "B".data "7".data⟩]⟩) ∧
      (OrdersDense (removeOutputField "a".data
          ⟨none, OutputFormat.txt, none,
            [⟨"a".data, 0, some 2, some ' ', some PadDir.right, none, false,
              FieldKind.staticF "A".data "x".data⟩,
             ⟨"b".data, 1, some 3, some '0', some PadDir.left, none, false,
              FieldKind.staticF "B".data "7".data⟩]⟩).fields ∧
        OrdersDense (moveField "a".data MoveDir.down
          ⟨none, OutputFormat.txt, none,
            [⟨"a".data, 0, some 2, some ' ', some PadDir.right, none, false,
              FieldKind.staticF "A".data "x".data⟩,
             ⟨"b".data, 1, some 3, some '0', some PadDir.left, none, false,
              FieldKind.staticF "B".data "7".data⟩]⟩).fields ∧
        OrdersDense (reconcile 5 []
          ⟨none, OutputFormat.txt, none,
            [⟨"a".data, 0, some 2, some ' ', some PadDir.right, none, false,
              FieldKind.staticF "A".data "x".data⟩,
             ⟨"b".data, 1, some 3, some '0', some PadDir.left, none, false,
              FieldKind.staticF "B".data "7".data⟩]⟩).fields) :=
  ⟨by decide,
   claim_C10_dense_orders
     ⟨none, OutputFormat.txt, none,
       [⟨"a".data, 0, some 2, some ' ', some PadDir.right, none, false,
         FieldKind.staticF "A".data "x".data⟩,
        ⟨"b".data, 1, some 3, some '0', some PadDir.left, none, false,
         FieldKind.staticF "B".data "7".data⟩]⟩
     "a".data MoveDir.down 5 [] (by decide)⟩

theorem length_txtFieldOut (mps : List ColumnMapping) (f : OutputField)
    (value : Str) (h : 0 < f.length.getD 0) :
    (txtFieldOut mps f value).length = f.length.getD 0 :=
  length_formatFixedWidth _ _ _ _ _ h

theorem length_convertRowTxt (mps : List ColumnMapping) (today : YMD)
    (refYear : Nat) (hasData : Bool) (sorted : List OutputField) (row : Row)
    (h : ∀ f ∈ sorted, 0 < f.length.getD 0) :
    (convertRowTxt mps today refYear hasData sorted row).length =
      (sorted.map (fun f => f.length.getD 0)).sum := by
  induction sorted with
  | nil => rfl
  | cons f t ih =>
    rw [convertRowTxt, List.flatMap_cons, List.length_append,
      length_txtFieldOut mps f _ (h f (by simp)), List.map_cons, List.sum_cons]
    rw [convertRowTxt] at ih
    rw [ih (fun g hg => h g (by simp [hg]))]

theorem sum_map_sortFieldsByOrder (g : OutputField → Nat) (l : List OutputField) :
    ((sortFieldsByOrder l).map g).sum = (l.map g).sum :=
  ((List.perm_insertionSort _ l).map g).sum_eq

theorem mem_sortFieldsByOrder (f : OutputField) (l : List OutputField) :
    f ∈ sortFieldsByOrder l ↔ f ∈ l :=
  List.mem_insertionSort _

/-- Counterexample schema for C4: one space-padded static field of length 3
whose value is the single letter `a`. -/
def staticPadEx : OutputField :=
  ⟨"s1".data, 0, some 3, some ' ', some PadDir.right, none, false,
    FieldKind.staticF "Campo".data "a".data⟩

/-- Counterexample to claim C4 as stated: the full padded line is `"a  "`
(three characters, matching the sum of field lengths), but the final buffer
is produced by `trimEnd()`, which strips the trailing spaces along with the
newline — the single output line does not retain its padded length. -/
theorem claim_C4_counterexample :
    (convertRowTxt [] ⟨2026, 1, 1⟩ 2026 true (sortFieldsByOrder [staticPadEx]) []).length = 3 ∧
      convertTxt [] ⟨2026, 1, 1⟩ 2026 [staticPadEx] [[]] = "a".data := by
  constructor
  · decide
  · decide

/-- Claim C4 (amended): in a fixed-width conversion whose fields all have
positive configured lengths, every physical line has length equal to the sum
of the configured field lengths and lines are emitted newline-terminated in
input row order; the final buffer is the concatenation of those lines with
ALL trailing whitespace removed (`trimEnd()`), not just one trailing
newline — so the last line keeps its padded length only when it does not end
in whitespace. -/
theorem claim_C4_fixed_width_lines (mps : List ColumnMapping) (today : YMD)
    (refYear : Nat) (fields : List OutputField) (rows : List Row)
    (hlen : ∀ f ∈ fields, 0 < f.length.getD 0) :
    (∀ (hasData : Bool) (row : Row),
      (convertRowTxt mps today refYear hasData (sortFieldsByOrder fields) row).length =
        (fields.map (fun f => f.length.getD 0)).sum) ∧
      convertTxt mps today refYear fields rows =
        jsTrimEnd (((if rows.isEmpty then [[]] else rows).map fun row =>
          convertRowTxt mps today refYear (!rows.isEmpty) (sortFieldsByOrder fields) row
            ++ ['\n'])).flatten := by
  constructor
  · intro hasData row
    have hmem : ∀ f ∈ sortFieldsByOrder fields, 0 < f.length.getD 0 := by
      intro f hf
      exact hlen f ((mem_sortFieldsByOrder f fields).mp hf)
    rw [length_convertRowTxt mps today refYear hasData (sortFieldsByOrder fields) row hmem]
    exact sum_map_sortFieldsByOrder _ fields
  · rfl

/-- Witness for the amended C4 on a concrete two-field schema and table. -/
theorem claim_C4_witness :
    (convertRowTxt []
        ⟨2026, 1, 1⟩ 2026 true
        (sortFieldsByOrder
          [⟨"a".data, 0, some 2, some '0', some PadDir.left, none, false,
            FieldKind.staticF "A".data "7".data⟩,
           ⟨"b".data, 1, some 4, some ' ', some PadDir.right, none, false,
            FieldKind.staticF "B".data "xy".data⟩])
        []).length = 6 := by
  have h := (claim_C4_fixed_width_lines []
    ⟨2026, 1, 1⟩ 2026
    [⟨"a".data, 0, some 2, some '0', some PadDir.left, none, false,
      FieldKind.staticF "A".data "7".data⟩,
     ⟨"b".data, 1, some 4, some ' ', some PadDir.right, none, false,
      FieldKind.staticF "B".data "xy".data⟩]
    [] (by decide)).1 true []
  rw [h]
  decide

theorem kind_mem_renumberFrom (i : Int) (l : List OutputField) (g : OutputField)
    (hg : g ∈ renumberFrom i l) : ∃ g0 ∈ l, g.kind = g0.kind := by
  induction l generalizing i with
  | nil => simp [renumberFrom] at hg
  | cons f t ih =>
    rw [renumberFrom] at hg
    rcases List.mem_cons.mp hg with h | h
    · exact ⟨f, by simp, by rw [h]⟩
    · obtain ⟨g0, hmem, hkind⟩ := ih (i + 1) h
      exact ⟨g0, by simp [hmem], hkind⟩

/-- Claim C7 (amended): after reconciliation with mappings that no longer
carry a field id `r`, no surviving calculated descriptor whose algorithm is
not `FormatPeriodMMAAAA` lists `r` among its required input fields —
removing a mapping a calculated field depends on removes that field, except
for `FormatPeriodMMAAAA` descriptors, which the pruning filter explicitly
exempts because they may fall back to the current date. -/
theorem claim_C7_prune_calculated (now : Nat) (mps : List ColumnMapping)
    (cfg : OutputConfigT) (r : Str)
    (hunmapped : ∀ m ∈ mps, ¬(m.mappedField = some r)) :
    ∀ g ∈ (reconcile now mps cfg).fields, isCalcField g = true →
      calcTypeOf g ≠ some CalcType.periodMMAAAA → r ∉ calcReqOf g := by
  intro g hg hcalc hty hmem
  have hg2 : g ∈ reconcileFields now cfg.format mps cfg.fields := by
    rw [reconcile] at hg
    split at hg
    · rename_i h2
      rw [h2] at hg
      exact hg
    · exact hg
  rw [reconcileFields] at hg2
  obtain ⟨g0, hg0mem, hkind⟩ := kind_mem_renumberFrom 0 _ g hg2
  have hg0sort := (List.mem_insertionSort _).mp hg0mem
  have hkeep2 := (List.mem_filter.mp hg0sort).2
  obtain ⟨ty, nm, req, pp, ppm, hk⟩ :
      ∃ ty nm req pp ppm, g.kind = FieldKind.calc ty nm req pp ppm := by
    rw [isCalcField] at hcalc
    split at hcalc
    · rename_i ty2 nm2 req2 pp2 ppm2 hk2
      exact ⟨ty2, nm2, req2, pp2, ppm2, hk2⟩
    · simp at hcalc
  rw [keepFilter2, ← hkind, hk] at hkeep2
  have hkeep3 : ((req.all fun s => mps.any fun cm => cm.mappedField == some s) ||
      ty == CalcType.periodMMAAAA) = true := hkeep2
  have htyne : (ty == CalcType.periodMMAAAA) = false := by
    rw [calcTypeOf, hk] at hty
    simp at hty
    simp [hty]
  rw [htyne, Bool.or_false, List.all_eq_true] at hkeep3
  rw [calcReqOf, hk] at hmem
  have hany := hkeep3 r hmem
  rw [List.any_eq_true] at hany
  obtain ⟨m, hm, hmf⟩ := hany
  rw [beq_iff_eq] at hmf
  exact hunmapped m hm hmf

/-- One fully-normalized `FormatPeriodMMAAAA` calculated descriptor that
requires the mapped `periodo` field. -/
def periodCalcEx : OutputField :=
  ⟨"c2".data, 0, some 6, some '0', some PadDir.left, some DateFormatT.ddmmyyyy, false,
    FieldKind.calc CalcType.periodMMAAAA "Periodo MMAAAA".data ["periodo".data] none none⟩

/-- A schema holding only that descriptor. -/
def cfgPeriodEx : OutputConfigT := ⟨none, OutputFormat.txt, none, [periodCalcEx]⟩

/-- Counterexample to claim C7 as stated: a `FormatPeriodMMAAAA` calculated
field requires the mapped `periodo` field, every column mapping carrying
`periodo` has been removed (the mapping table is empty), yet reconciliation
keeps the calculated field in the output schema. -/
theorem claim_C7_counterexample :
    isCalcField periodCalcEx = true ∧
      "periodo".data ∈ calcReqOf periodCalcEx ∧
      (reconcile 0 [] cfgPeriodEx).fields = [periodCalcEx] := by
  refine ⟨rfl, by decide, by decide⟩

/-- A fully-normalized `CalculateStartDate` descriptor requiring the mapped
`parcelas_pagas` field. -/
def startCalcEx : OutputField :=
  ⟨"c3".data, 0, some 8, some '0', some PadDir.left, some DateFormatT.ddmmyyyy, false,
    FieldKind.calc CalcType.startDate "Inicio".data ["parcelas_pagas".data]
      (some "31/12/2024".data) none⟩

/-- A schema holding only that descriptor. -/
def cfgStartEx : OutputConfigT := ⟨none, OutputFormat.txt, none, [startCalcEx]⟩

/-- Witness for the amended C7: with its required mapping gone, the
`CalculateStartDate` descriptor does not survive reconciliation. -/
theorem claim_C7_witness : startCalcEx ∉ (reconcile 0 [] cfgStartEx).fields := by
  intro hmem
  exact (claim_C7_prune_calculated 0 [] cfgStartEx "parcelas_pagas".data
    (by intro m hm; exact absurd hm (List.not_mem_nil m))
    startCalcEx hmem (by decide) (by decide)) (by decide)

/-! ## Idempotence of schema reconciliation (claim C6)

The proof shows that one reconciliation pass leaves every descriptor in a
normal form the second pass reproduces: refreshed statics and calculateds
are fix-points of their refresh, the unique-mapped map rebuilt from the
output contains exactly the output's mapped descriptors, and the final
sort/renumber is the identity on a densely renumbered list. -/

theorem getDefaultPaddingChar_congr (f g : OutputField) (mps : List ColumnMapping)
    (h : f.kind = g.kind) : getDefaultPaddingChar f mps = getDefaultPaddingChar g mps := by
  rw [getDefaultPaddingChar, getDefaultPaddingChar, h]

theorem getDefaultPaddingDirection_congr (f g : OutputField) (mps : List ColumnMapping)
    (h : f.kind = g.kind) :
    getDefaultPaddingDirection f mps = getDefaultPaddingDirection g mps := by
  rw [getDefaultPaddingDirection, getDefaultPaddingDirection, h]

theorem staticValueOf_congr (f g : OutputField) (h : f.kind = g.kind) :
    staticValueOf f = staticValueOf g := by
  rw [staticValueOf, staticValueOf, h]

theorem calcTypeOf_congr (f g : OutputField) (h : f.kind = g.kind) :
    calcTypeOf f = calcTypeOf g := by
  rw [calcTypeOf, calcTypeOf, h]

theorem kind_normStatic (fmt : OutputFormat) (mps : List ColumnMapping)
    (orig : Option OutputField) (f : OutputField) :
    (normStatic fmt mps orig f).kind = f.kind := by
  rw [normStatic]
  split <;> rfl

theorem kind_normCalc (fmt : OutputFormat) (mps : List ColumnMapping)
    (orig : Option OutputField) (f : OutputField) :
    (normCalc fmt mps orig f).kind = f.kind := by
  rw [normCalc]
  split <;> (try split) <;> rfl

theorem kind_mergeMapped (fmt : OutputFormat) (mps : List ColumnMapping)
    (fid : Str) (ex : OutputField) : (mergeMapped fmt mps fid ex).kind = ex.kind := by
  rw [mergeMapped]
  split <;> rfl

theorem order_normStatic (fmt : OutputFormat) (mps : List ColumnMapping)
    (orig : Option OutputField) (f : OutputField) :
    (normStatic fmt mps orig f).order = f.order := by
  rw [normStatic]
  split <;> rfl

theorem order_normCalc (fmt : OutputFormat) (mps : List ColumnMapping)
    (orig : Option OutputField) (f : OutputField) :
    (normCalc fmt mps orig f).order = f.order := by
  rw [normCalc]
  split <;> (try split) <;> rfl

theorem order_mergeMapped (fmt : OutputFormat) (mps : List ColumnMapping)
    (fid : Str) (ex : OutputField) : (mergeMapped fmt mps fid ex).order = ex.order := by
  rw [mergeMapped]
  split <;> rfl

/-- A static descriptor is a fix-point of the static refresh, for any lookup
result the pass may pair it with. -/
def StaticFix (fmt : OutputFormat) (mps : List ColumnMapping) (g : OutputField) : Prop :=
  ∀ orig : Option OutputField, normStatic fmt mps orig g = g

/-- A calculated descriptor is a fix-point of the calculated refresh. -/
def CalcFix (fmt : OutputFormat) (mps : List ColumnMapping) (g : OutputField) : Prop :=
  ∀ orig : Option OutputField, normCalc fmt mps orig g = g

/-- A mapped descriptor is a fix-point of the duplicate-merge refresh keyed
by its own field id. -/
def MergeFix (fmt : OutputFormat) (mps : List ColumnMapping) (g : OutputField) : Prop :=
  mergeMapped fmt mps ((mappedFidOf g).getD []) g = g

theorem staticFix_normStatic (fmt : OutputFormat) (mps : List ColumnMapping)
    (orig : Option OutputField) (f : OutputField) :
    StaticFix fmt mps (normStatic fmt mps orig f) := by
  intro orig2
  obtain ⟨i, o, l, pc, pd, df, isp, k⟩ := f
  cases fmt with
  | txt => simp [normStatic]
  | csv => simp [normStatic]

theorem staticFix_order (fmt : OutputFormat) (mps : List ColumnMapping)
    (g : OutputField) (hg : StaticFix fmt mps g) (i : Int) :
    StaticFix fmt mps { g with order := i } := by
  intro orig2
  have h := hg orig2
  obtain ⟨gi, go, gl, gpc, gpd, gdf, gisp, gk⟩ := g
  cases fmt with
  | txt =>
    simp only [normStatic] at h ⊢
    simp_all [staticValueOf, getDefaultPaddingChar, getDefaultPaddingDirection]
  | csv =>
    simp only [normStatic] at h ⊢
    simp_all

theorem calcFix_normCalc (fmt : OutputFormat) (mps : List ColumnMapping)
    (orig : Option OutputField) (f : OutputField) :
    CalcFix fmt mps (normCalc fmt mps orig f) := by
  intro orig2
  obtain ⟨i, o, l, pc, pd, df, isp, k⟩ := f
  rcases k with fid | ⟨n, v⟩ | ⟨ty, n, req, p1, p2⟩
  · cases fmt <;> simp [normCalc, calcTypeOf]
  · cases fmt <;> simp [normCalc, calcTypeOf]
  · cases ty <;> cases fmt <;> simp [normCalc, calcTypeOf]

theorem calcFix_order (fmt : OutputFormat) (mps : List ColumnMapping)
    (g : OutputField) (hg : CalcFix fmt mps g) (i : Int) :
    CalcFix fmt mps { g with order := i } := by
  intro orig2
  have h := hg orig2
  obtain ⟨gi, go, gl, gpc, gpd, gdf, gisp, gk⟩ := g
  rcases gk with fid | ⟨n, v⟩ | ⟨ty, n, req, p1, p2⟩
  · cases fmt <;>
      simp_all [normCalc, calcTypeOf, getDefaultPaddingChar, getDefaultPaddingDirection,
        defaultCalcLenOpt]
  · cases fmt <;>
      simp_all [normCalc, calcTypeOf, getDefaultPaddingChar, getDefaultPaddingDirection,
        defaultCalcLenOpt]
  · cases ty <;> cases fmt <;>
      simp_all [normCalc, calcTypeOf, getDefaultPaddingChar, getDefaultPaddingDirection,
        defaultCalcLenOpt]

theorem mergeMapped_idem (fmt : OutputFormat) (mps : List ColumnMapping)
    (fid : Str) (ex : OutputField) :
    mergeMapped fmt mps fid (mergeMapped fmt mps fid ex) = mergeMapped fmt mps fid ex := by
  obtain ⟨i, o, l, pc, pd, df, isp, k⟩ := ex
  by_cases hdt :
      ((findMappingFor mps fid).bind ColumnMapping.dataType) = some DataTypeV.dataT <;>
    cases fmt <;>
      simp_all [mergeMapped, getDefaultPaddingChar, getDefaultPaddingDirection]

theorem mergeFix_order (fmt : OutputFormat) (mps : List ColumnMapping)
    (fid : Str) (g : OutputField) (hg : mergeMapped fmt mps fid g = g) (i : Int) :
    mergeMapped fmt mps fid { g with order := i } = { g with order := i } := by
  obtain ⟨gi, go, gl, gpc, gpd, gdf, gisp, gk⟩ := g
  by_cases hdt :
      ((findMappingFor mps fid).bind ColumnMapping.dataType) = some DataTypeV.dataT <;>
    cases fmt <;>
      simp_all [mergeMapped, getDefaultPaddingChar, getDefaultPaddingDirection]

theorem kind_mkPotential (now : Nat) (fmt : OutputFormat) (mps : List ColumnMapping)
    (fields : List OutputField) (m : ColumnMapping) (idx : Nat) :
    (mkPotential now fmt mps fields m idx).kind = .mapped (m.mappedField.getD []) := rfl

/-- The first potential descriptor built for a field id is a fix-point of the
merge refresh, because the merge recomputes the data type from the same (first
matching) column mapping the potential was built from. -/
theorem mergeFix_mkPotential (now : Nat) (fmt : OutputFormat) (mps : List ColumnMapping)
    (fields : List OutputField) (m : ColumnMapping) (idx : Nat) (fid : Str)
    (hfind : findMappingFor mps fid = some m) (hfid : m.mappedField = some fid) :
    mergeMapped fmt mps fid (mkPotential now fmt mps fields m idx) =
      mkPotential now fmt mps fields m idx := by
  by_cases hdt : m.dataType = some DataTypeV.dataT <;>
    cases fmt <;>
      simp_all [mergeMapped, mkPotential, hfind, hfid]

/-- Keys of the modelled JS `Map`, in insertion order. -/
def keysFM (m : FieldMap) : List Str := m.map Prod.fst

/-- Key uniqueness, an invariant of every `Map` the reconciler builds. -/
def NodupKeysFM (m : FieldMap) : Prop := (keysFM m).Nodup

theorem find?_key_isSome (m : FieldMap) (k : Str) :
    (m.find? (fun p => p.1 == k)).isSome ↔ k ∈ keysFM m := by
  induction m with
  | nil => simp [keysFM]
  | cons p t ih =>
    cases hpk : (p.1 == k) with
    | true =>
      rw [@List.find?_cons_of_pos _ (fun q => q.1 == k) p t hpk]
      rw [beq_iff_eq] at hpk
      constructor
      · intro _
        simp only [keysFM, List.map_cons, List.mem_cons]
        exact Or.inl hpk.symm
      · intro _
        rfl
    | false =>
      rw [@List.find?_cons_of_neg _ (fun q => q.1 == k) p t (by simp [hpk])]
      rw [ih]
      have hne : ¬ (p.1 = k) := by
        intro hc
        rw [hc] at hpk
        simp at hpk
      simp only [keysFM, List.map_cons, List.mem_cons]
      constructor
      · exact fun h => Or.inr h
      · rintro (h | h)
        · exact absurd h.symm hne
        · exact h

theorem lookupFM_isSome_iff (m : FieldMap) (k : Str) :
    (lookupFM m k).isSome ↔ k ∈ keysFM m := by
  rw [lookupFM]
  cases hf : m.find? (fun p => p.1 == k) with
  | none => rw [← find?_key_isSome, hf]; simp
  | some p => rw [← find?_key_isSome, hf]; simp

theorem keysFM_setFM_mem (m : FieldMap) (k : Str) (v : OutputField)
    (h : k ∈ keysFM m) : keysFM (setFM m k v) = keysFM m := by
  rw [setFM, if_pos ((find?_key_isSome m k).mpr h)]
  rw [keysFM, keysFM, List.map_map]
  apply List.map_congr_left
  intro p _
  by_cases hk : p.1 = k
  · simp [hk]
  · simp [hk]

theorem keysFM_setFM_new (m : FieldMap) (k : Str) (v : OutputField)
    (h : ¬ k ∈ keysFM m) : keysFM (setFM m k v) = keysFM m ++ [k] := by
  rw [setFM, if_neg (fun hc => h ((find?_key_isSome m k).mp hc))]
  simp [keysFM]

theorem nodup_setFM (m : FieldMap) (k : Str) (v : OutputField)
    (hn : NodupKeysFM m) : NodupKeysFM (setFM m k v) := by
  by_cases h : k ∈ keysFM m
  · rw [NodupKeysFM, keysFM_setFM_mem m k v h]; exact hn
  · rw [NodupKeysFM, keysFM_setFM_new m k v h, List.nodup_append]
    refine ⟨hn, List.nodup_singleton k, ?_⟩
    intro a ha hb
    rw [List.mem_singleton] at hb
    exact h (hb ▸ ha)

theorem key_unique (m : FieldMap) (hn : NodupKeysFM m) {k : Str} {v : OutputField}
    (hv : (k, v) ∈ m) {q : Str × OutputField} (hq : q ∈ m) (hk : q.1 = k) :
    q = (k, v) := by
  induction m with
  | nil => cases hv
  | cons p t ih =>
    rw [NodupKeysFM, keysFM] at hn
    simp only [List.map_cons, List.nodup_cons] at hn
    rcases List.mem_cons.mp hv with hv1 | hv1 <;> rcases List.mem_cons.mp hq with hq1 | hq1
    · rw [hq1, hv1]
    · exfalso
      apply hn.1
      rw [← hv1]
      have hkt : q.1 ∈ List.map Prod.fst t := List.mem_map_of_mem Prod.fst hq1
      rw [hk] at hkt
      exact hkt
    · exfalso
      apply hn.1
      rw [← hq1, hk]
      exact List.mem_map_of_mem Prod.fst hv1
    · exact ih hn.2 hv1 hq1

theorem setFM_self (m : FieldMap) (k : Str) (v : OutputField)
    (hn : NodupKeysFM m) (h : lookupFM m k = some v) : setFM m k v = m := by
  rw [lookupFM] at h
  obtain ⟨p0, hfind, hv⟩ := Option.map_eq_some'.mp h
  have hp0k : p0.1 = k := by
    have := List.find?_some hfind
    simpa [beq_iff_eq] using this
  have hp0m : p0 ∈ m := List.mem_of_find?_eq_some hfind
  have hp0 : p0 = (k, v) := by
    obtain ⟨a, b⟩ := p0
    simp only at hp0k hv
    rw [hp0k, hv]
  rw [setFM, if_pos (by rw [hfind]; rfl)]
  have : ∀ q ∈ m, (if q.1 == k then (k, v) else q) = q := by
    intro q hq
    by_cases hqk : q.1 = k
    · rw [if_pos (by simpa using hqk)]
      exact (key_unique m hn (hp0 ▸ hp0m) hq hqk).symm
    · rw [if_neg (by simpa using hqk)]
  exact (List.map_congr_left this).trans (List.map_id m)

theorem mappedFidTruthy_eq_some {f : OutputField} {k : Str}
    (h : mappedFidTruthy f = some k) : f.kind = FieldKind.mapped k ∧ k ≠ [] := by
  rw [mappedFidTruthy] at h
  rcases hk : f.kind with fid | ⟨n, v⟩ | ⟨ty, n, req, p1, p2⟩ <;> rw [hk] at h
  · have h' : (if fid.isEmpty = true then (none : Option Str) else some fid) = some k := h
    by_cases he : fid.isEmpty = true
    · rw [if_pos he] at h'
      cases h'
    · rw [if_neg he] at h'
      obtain rfl := Option.some.inj h'
      refine ⟨rfl, ?_⟩
      intro hc
      rw [hc] at he
      exact he rfl
  · have h' : (none : Option Str) = some k := h
    cases h'
  · have h' : (none : Option Str) = some k := h
    cases h'

theorem mappedFidTruthy_of_kind {f : OutputField} {k : Str}
    (hk : f.kind = FieldKind.mapped k) (hne : k ≠ []) : mappedFidTruthy f = some k := by
  rw [mappedFidTruthy, hk]
  show (if k.isEmpty = true then (none : Option Str) else some k) = some k
  rw [if_neg (by cases k with | nil => exact absurd rfl hne | cons c t => simp)]

/-- `columnMappings.some(m => m.mappedField === fid)`, the survival test of the
first descriptor filter. -/
def hasMappingFor (mps : List ColumnMapping) (k : Str) : Bool :=
  mps.any (fun cm => cm.mappedField == some k)

theorem mem_of_lookupFM {m : FieldMap} {k : Str} {v : OutputField}
    (h : lookupFM m k = some v) : (k, v) ∈ m := by
  rw [lookupFM] at h
  obtain ⟨p0, hfind, hv⟩ := Option.map_eq_some'.mp h
  have hp0k : p0.1 = k := by simpa [beq_iff_eq] using List.find?_some hfind
  have hp0m : p0 ∈ m := List.mem_of_find?_eq_some hfind
  obtain ⟨a, b⟩ := p0
  simp only at hp0k hv
  rw [← hp0k, ← hv]
  exact hp0m

theorem lookupFM_none_iff (m : FieldMap) (k : Str) :
    lookupFM m k = none ↔ ¬ k ∈ keysFM m := by
  rw [← lookupFM_isSome_iff m k]
  cases lookupFM m k <;> simp

theorem mem_setFM {m : FieldMap} {k : Str} {v : OutputField} {pr : Str × OutputField}
    (h : pr ∈ setFM m k v) : (pr ∈ m ∧ pr.1 ≠ k) ∨ pr = (k, v) := by
  rw [setFM] at h
  by_cases hc : (m.find? (fun p => p.1 == k)).isSome = true
  · rw [if_pos hc] at h
    obtain ⟨q, hq, hupd⟩ := List.mem_map.mp h
    by_cases hqk : q.1 = k
    · right
      rw [← hupd, if_pos (by simpa using hqk)]
    · left
      rw [← hupd, if_neg (by simpa using hqk)]
      exact ⟨hq, hqk⟩
  · rw [if_neg hc] at h
    rcases List.mem_append.mp h with h1 | h1
    · left
      refine ⟨h1, ?_⟩
      intro hk1
      exact hc ((find?_key_isSome m k).mpr (hk1 ▸ List.mem_map_of_mem Prod.fst h1))
    · right
      simpa using h1

/-- The predicate locating the (first) potential descriptor carrying field id
`k` in the second `uniqueMappedFieldsMap` pass. -/
def potPred (k : Str) (q : OutputField) : Bool := mappedFidTruthy q == some k

theorem potPred_none {k : Str} {q : OutputField} (h : mappedFidTruthy q = none) :
    potPred k q = false := by
  rw [potPred, h]
  rfl

theorem potPred_true_iff {k : Str} {q : OutputField} :
    potPred k q = true ↔ mappedFidTruthy q = some k := by
  rw [potPred, beq_iff_eq]

/-- Invariant of the fold that merges the potential mapped descriptors into the
seeded map: keys are the (non-empty) mapped field ids of their values and stay
duplicate-free, every stored descriptor whose field id some mapping still
carries ends up a fix-point of the merge refresh, and a key is present in the
final map as soon as it was present initially or some potential carries it. -/
theorem foldAP_invariant (fmt : OutputFormat) (mps : List ColumnMapping)
    (ps : List OutputField) :
    ∀ (acc : FieldMap),
      (∀ pr ∈ acc, pr.2.kind = FieldKind.mapped pr.1 ∧ pr.1 ≠ []) →
      NodupKeysFM acc →
      (∀ (k : Str) (p : OutputField), ps.find? (potPred k) = some p →
        ¬ k ∈ keysFM acc → mergeMapped fmt mps k p = p) →
      (∀ pr ∈ acc, hasMappingFor mps pr.1 = true →
        mergeMapped fmt mps pr.1 pr.2 = pr.2 ∨
          (ps.find? (potPred pr.1)).isSome = true) →
      (∀ pr ∈ ps.foldl (applyPotential fmt mps) acc,
          pr.2.kind = FieldKind.mapped pr.1 ∧ pr.1 ≠ []) ∧
      NodupKeysFM (ps.foldl (applyPotential fmt mps) acc) ∧
      (∀ pr ∈ ps.foldl (applyPotential fmt mps) acc,
        hasMappingFor mps pr.1 = true → mergeMapped fmt mps pr.1 pr.2 = pr.2) ∧
      (∀ k : Str, (k ∈ keysFM acc ∨ (ps.find? (potPred k)).isSome = true) →
        k ∈ keysFM (ps.foldl (applyPotential fmt mps) acc)) := by
  induction ps with
  | nil =>
    intro acc hK hN _ hJ
    refine ⟨hK, hN, ?_, ?_⟩
    · intro pr hpr hm
      rcases hJ pr hpr hm with h | h
      · exact h
      · rw [List.find?_nil] at h
        cases h
    · intro k hk
      rcases hk with hk | hk
      · exact hk
      · rw [List.find?_nil] at hk
        cases hk
  | cons p0 ps ih =>
    intro acc hK hN hH hJ
    rw [List.foldl_cons]
    cases hkey : mappedFidTruthy p0 with
    | none =>
      have hfind : ∀ k : Str, (p0 :: ps).find? (potPred k) = ps.find? (potPred k) := by
        intro k
        apply List.find?_cons_of_neg ps
        rw [potPred_none hkey]
        exact fun hc => nomatch hc
      have hred : applyPotential fmt mps acc p0 = acc := by
        simp only [applyPotential, hkey]
      rw [hred]
      obtain ⟨c1, c2, c3, c4⟩ := ih acc hK hN
        (fun k p hfp hk => hH k p (by rw [hfind k]; exact hfp) hk)
        (fun pr hpr hm => by
          rcases hJ pr hpr hm with h | h
          · exact Or.inl h
          · rw [hfind pr.1] at h
            exact Or.inr h)
      refine ⟨c1, c2, c3, ?_⟩
      intro k hk
      apply c4 k
      rcases hk with hk | hk
      · exact Or.inl hk
      · rw [hfind k] at hk
        exact Or.inr hk
    | some k0 =>
      have hkind0 := mappedFidTruthy_eq_some hkey
      have hfind : ∀ k : Str, k ≠ k0 →
          (p0 :: ps).find? (potPred k) = ps.find? (potPred k) := by
        intro k hkne
        apply List.find?_cons_of_neg ps
        intro hc
        rw [potPred_true_iff] at hc
        rw [hkey] at hc
        exact hkne (Option.some.inj hc).symm
      cases hlk : lookupFM acc k0 with
      | none =>
        have hred : applyPotential fmt mps acc p0 = acc ++ [(k0, p0)] := by
          simp only [applyPotential, hkey, hlk]
        rw [hred]
        have hnotmem : ¬ k0 ∈ keysFM acc := (lookupFM_none_iff acc k0).mp hlk
        have hkeys : keysFM (acc ++ [(k0, p0)]) = keysFM acc ++ [k0] := by
          simp [keysFM]
        have hfix0 : mergeMapped fmt mps k0 p0 = p0 := by
          apply hH k0 p0 ?_ hnotmem
          exact List.find?_cons_of_pos ps (by rw [potPred_true_iff]; exact hkey)
        have hK' : ∀ pr ∈ acc ++ [(k0, p0)],
            pr.2.kind = FieldKind.mapped pr.1 ∧ pr.1 ≠ [] := by
          intro pr hpr
          rcases List.mem_append.mp hpr with h1 | h1
          · exact hK pr h1
          · rw [List.mem_singleton] at h1
            rw [h1]
            exact hkind0
        have hN' : NodupKeysFM (acc ++ [(k0, p0)]) := by
          rw [NodupKeysFM, hkeys, List.nodup_append]
          refine ⟨hN, List.nodup_singleton _, ?_⟩
          intro a ha hb
          rw [List.mem_singleton] at hb
          exact hnotmem (hb ▸ ha)
        have hH' : ∀ (k : Str) (p : OutputField), ps.find? (potPred k) = some p →
            ¬ k ∈ keysFM (acc ++ [(k0, p0)]) → mergeMapped fmt mps k p = p := by
          intro k p hfp hk
          rw [hkeys] at hk
          have hkne : k ≠ k0 := by
            intro hc
            exact hk (by rw [hc]; exact List.mem_append_right _ (List.mem_singleton_self k0))
          have hka : ¬ k ∈ keysFM acc := fun hc => hk (List.mem_append_left _ hc)
          exact hH k p (by rw [hfind k hkne]; exact hfp) hka
        have hJ' : ∀ pr ∈ acc ++ [(k0, p0)], hasMappingFor mps pr.1 = true →
            mergeMapped fmt mps pr.1 pr.2 = pr.2 ∨
              (ps.find? (potPred pr.1)).isSome = true := by
          intro pr hpr hm
          rcases List.mem_append.mp hpr with h1 | h1
          · have hprk : pr.1 ∈ keysFM acc := List.mem_map_of_mem Prod.fst h1
            have hkne : pr.1 ≠ k0 := fun hc => hnotmem (hc ▸ hprk)
            rcases hJ pr h1 hm with h | h
            · exact Or.inl h
            · rw [hfind pr.1 hkne] at h
              exact Or.inr h
          · rw [List.mem_singleton] at h1
            rw [h1]
            exact Or.inl hfix0
        obtain ⟨c1, c2, c3, c4⟩ := ih (acc ++ [(k0, p0)]) hK' hN' hH' hJ'
        refine ⟨c1, c2, c3, ?_⟩
        intro k hk
        apply c4 k
        by_cases hkne : k = k0
        · left
          rw [hkeys, hkne]
          exact List.mem_append_right _ (List.mem_singleton_self k0)
        · rcases hk with hk | hk
          · left
            rw [hkeys]
            exact List.mem_append_left _ hk
          · rw [hfind k hkne] at hk
            exact Or.inr hk
      | some ex =>
        have hexmem : (k0, ex) ∈ acc := mem_of_lookupFM hlk
        have hmem0 : k0 ∈ keysFM acc := by
          rw [← lookupFM_isSome_iff, hlk]
          rfl
        have hred : applyPotential fmt mps acc p0 =
            setFM acc k0 (mergeMapped fmt mps k0 ex) := by
          simp only [applyPotential, hkey, hlk]
        rw [hred]
        have hkeys : keysFM (setFM acc k0 (mergeMapped fmt mps k0 ex)) = keysFM acc :=
          keysFM_setFM_mem acc k0 _ hmem0
        have hexkind := hK (k0, ex) hexmem
        have hK' : ∀ pr ∈ setFM acc k0 (mergeMapped fmt mps k0 ex),
            pr.2.kind = FieldKind.mapped pr.1 ∧ pr.1 ≠ [] := by
          intro pr hpr
          rcases mem_setFM hpr with ⟨h1, _⟩ | h1
          · exact hK pr h1
          · rw [h1]
            refine ⟨?_, hexkind.2⟩
            show (mergeMapped fmt mps k0 ex).kind = FieldKind.mapped k0
            rw [kind_mergeMapped]
            exact hexkind.1
        have hN' := nodup_setFM acc k0 (mergeMapped fmt mps k0 ex) hN
        have hH' : ∀ (k : Str) (p : OutputField), ps.find? (potPred k) = some p →
            ¬ k ∈ keysFM (setFM acc k0 (mergeMapped fmt mps k0 ex)) →
            mergeMapped fmt mps k p = p := by
          intro k p hfp hk
          rw [hkeys] at hk
          have hkne : k ≠ k0 := fun hc => hk (hc ▸ hmem0)
          exact hH k p (by rw [hfind k hkne]; exact hfp) hk
        have hJ' : ∀ pr ∈ setFM acc k0 (mergeMapped fmt mps k0 ex),
            hasMappingFor mps pr.1 = true →
            mergeMapped fmt mps pr.1 pr.2 = pr.2 ∨
              (ps.find? (potPred pr.1)).isSome = true := by
          intro pr hpr hm
          rcases mem_setFM hpr with ⟨h1, hkne⟩ | h1
          · rcases hJ pr h1 hm with h | h
            · exact Or.inl h
            · rw [hfind pr.1 hkne] at h
              exact Or.inr h
          · left
            rw [h1]
            exact mergeMapped_idem fmt mps k0 ex
        obtain ⟨c1, c2, c3, c4⟩ := ih _ hK' hN' hH' hJ'
        refine ⟨c1, c2, c3, ?_⟩
        intro k hk
        apply c4 k
        by_cases hkne : k = k0
        · left
          rw [hkeys, hkne]
          exact hmem0
        · rcases hk with hk | hk
          · left
            rw [hkeys]
            exact hk
          · rw [hfind k hkne] at hk
            exact Or.inr hk

/-- The pair a truthy mapped descriptor contributes to the seeded map. -/
def seedPair (f : OutputField) : Option (Str × OutputField) :=
  (mappedFidTruthy f).map (fun k => (k, f))

/-- The (non-empty) mapped field ids of a descriptor list, in order. -/
def fidsOf (l : List OutputField) : List Str := l.filterMap mappedFidTruthy

theorem setFM_append {m : FieldMap} {k : Str} (v : OutputField)
    (h : ¬ k ∈ keysFM m) : setFM m k v = m ++ [(k, v)] := by
  rw [setFM, if_neg (fun hc => h ((find?_key_isSome m k).mp hc))]

theorem seed_foldl_invariant :
    ∀ (l : List OutputField) (acc : FieldMap),
      (∀ pr ∈ acc, pr.2.kind = FieldKind.mapped pr.1 ∧ pr.1 ≠ []) →
      NodupKeysFM acc →
      (∀ pr ∈ l.foldl seedStep acc, pr.2.kind = FieldKind.mapped pr.1 ∧ pr.1 ≠ []) ∧
      NodupKeysFM (l.foldl seedStep acc) := by
  intro l
  induction l with
  | nil =>
    intro acc hK hN
    exact ⟨hK, hN⟩
  | cons f t ih =>
    intro acc hK hN
    rw [List.foldl_cons]
    cases hkey : mappedFidTruthy f with
    | none =>
      have hred : seedStep acc f = acc := by
        rw [seedStep, hkey]
      rw [hred]
      exact ih acc hK hN
    | some k =>
      have hred : seedStep acc f = setFM acc k f := by
        rw [seedStep, hkey]
      rw [hred]
      refine ih (setFM acc k f) ?_ (nodup_setFM acc k f hN)
      intro pr hpr
      rcases mem_setFM hpr with ⟨h1, _⟩ | h1
      · exact hK pr h1
      · rw [h1]
        exact mappedFidTruthy_eq_some hkey

theorem seedMap_kinds (fields : List OutputField) :
    ∀ pr ∈ seedMap fields, pr.2.kind = FieldKind.mapped pr.1 ∧ pr.1 ≠ [] :=
  (seed_foldl_invariant fields [] (by intro pr hpr; cases hpr) (by
    rw [NodupKeysFM, keysFM]
    exact List.nodup_nil)).1

theorem seedMap_nodup (fields : List OutputField) : NodupKeysFM (seedMap fields) :=
  (seed_foldl_invariant fields [] (by intro pr hpr; cases hpr) (by
    rw [NodupKeysFM, keysFM]
    exact List.nodup_nil)).2

theorem seed_foldl_append :
    ∀ (l : List OutputField) (acc : FieldMap),
      (∀ k ∈ fidsOf l, ¬ k ∈ keysFM acc) →
      (fidsOf l).Nodup →
      l.foldl seedStep acc = acc ++ l.filterMap seedPair := by
  intro l
  induction l with
  | nil =>
    intro acc _ _
    simp
  | cons f t ih =>
    intro acc hdisj hnd
    rw [List.foldl_cons]
    cases hkey : mappedFidTruthy f with
    | none =>
      have hred : seedStep acc f = acc := by
        rw [seedStep, hkey]
      have hfids : fidsOf (f :: t) = fidsOf t := by
        rw [fidsOf, List.filterMap_cons_none hkey]
        rfl
      rw [hred, List.filterMap_cons_none (by rw [seedPair, hkey]; rfl)]
      rw [hfids] at hdisj hnd
      exact ih acc hdisj hnd
    | some k =>
      have hred : seedStep acc f = setFM acc k f := by
        rw [seedStep, hkey]
      have hfids : fidsOf (f :: t) = k :: fidsOf t := by
        rw [fidsOf, List.filterMap_cons_some hkey]
        rfl
      rw [hfids] at hdisj hnd
      rw [List.nodup_cons] at hnd
      have hknot : ¬ k ∈ keysFM acc := hdisj k (List.mem_cons_self k _)
      rw [hred, setFM_append f hknot]
      rw [List.filterMap_cons_some (by rw [seedPair, hkey]; rfl)]
      rw [ih (acc ++ [(k, f)]) ?_ hnd.2]
      · rw [List.append_assoc]
        rfl
      · intro a ha
        rw [keysFM, List.map_append]
        intro hc
        rcases List.mem_append.mp hc with hc1 | hc1
        · exact hdisj a (List.mem_cons_of_mem k ha) hc1
        · rw [show List.map Prod.fst [(k, f)] = [k] from rfl, List.mem_singleton] at hc1
          exact hnd.1 (hc1 ▸ ha)

theorem seedMap_eq_filterMap (fields : List OutputField)
    (hnd : (fidsOf fields).Nodup) :
    seedMap fields = fields.filterMap seedPair := by
  rw [seedMap, seed_foldl_append fields [] ?_ hnd]
  · rfl
  · intro k _ hc
    rw [keysFM] at hc
    cases hc

theorem keysFM_filterMap_seedPair (l : List OutputField) :
    keysFM (l.filterMap seedPair) = fidsOf l := by
  induction l with
  | nil => rfl
  | cons f t ih =>
    cases hkey : mappedFidTruthy f with
    | none =>
      rw [List.filterMap_cons_none (by rw [seedPair, hkey]; rfl),
        fidsOf, List.filterMap_cons_none hkey]
      exact ih
    | some k =>
      rw [List.filterMap_cons_some (by rw [seedPair, hkey]; rfl),
        fidsOf, List.filterMap_cons_some hkey]
      rw [keysFM, List.map_cons]
      rw [keysFM] at ih
      rw [ih]
      rfl

theorem mapSnd_filterMap_seedPair (l : List OutputField) :
    (l.filterMap seedPair).map Prod.snd =
      l.filter (fun f => (mappedFidTruthy f).isSome) := by
  induction l with
  | nil => rfl
  | cons f t ih =>
    cases hkey : mappedFidTruthy f with
    | none =>
      rw [List.filterMap_cons_none (by rw [seedPair, hkey]; rfl)]
      rw [List.filter_cons_of_neg (by rw [hkey]; exact fun hc => nomatch hc)]
      exact ih
    | some k =>
      rw [List.filterMap_cons_some (by rw [seedPair, hkey]; rfl)]
      rw [List.filter_cons_of_pos (by rw [hkey]; rfl)]
      rw [List.map_cons, ih]

theorem mem_filterMap_seedPair {l : List OutputField} {k : Str} {v : OutputField}
    (h : (k, v) ∈ l.filterMap seedPair) : v ∈ l ∧ mappedFidTruthy v = some k := by
  obtain ⟨a, ha, hpa⟩ := List.mem_filterMap.mp h
  rw [seedPair] at hpa
  cases hkey : mappedFidTruthy a with
  | none =>
    rw [hkey] at hpa
    cases hpa
  | some k1 =>
    rw [hkey] at hpa
    obtain ⟨hk1, hv⟩ := Prod.mk.inj (Option.some.inj hpa)
    rw [← hv]
    exact ⟨ha, by rw [hkey, hk1]⟩

/-- `columnMappings.filter(m => m.mappedField)`. -/
def filteredMpsOf (mps : List ColumnMapping) : List ColumnMapping :=
  mps.filter (fun m => m.mappedField.isSome)

/-- The `potentialMappedFields` array as a named list. -/
def potentialsOf (now : Nat) (fmt : OutputFormat) (mps : List ColumnMapping)
    (fields : List OutputField) : List OutputField :=
  ((filteredMpsOf mps).zip (List.range (filteredMpsOf mps).length)).map
    (fun p => mkPotential now fmt mps fields p.1 p.2)

/-- The refreshed static descriptors. -/
def staticsOf (fmt : OutputFormat) (mps : List ColumnMapping)
    (fields : List OutputField) : List OutputField :=
  (fields.filter isStaticField).map
    (fun f => normStatic fmt mps (lookupLastById fields f.id) f)

/-- The refreshed calculated descriptors. -/
def calcsOf (fmt : OutputFormat) (mps : List ColumnMapping)
    (fields : List OutputField) : List OutputField :=
  (fields.filter isCalcField).map
    (fun f => normCalc fmt mps (lookupLastById fields f.id) f)

/-- The values of the finished `uniqueMappedFieldsMap`, in insertion order. -/
def mappedValsOf (now : Nat) (fmt : OutputFormat) (mps : List ColumnMapping)
    (fields : List OutputField) : List OutputField :=
  ((potentialsOf now fmt mps fields).foldl (applyPotential fmt mps)
    (seedMap fields)).map Prod.snd

/-- The combined descriptor list after both orphan filters, before the final
sort and renumbering. -/
def zOf (now : Nat) (fmt : OutputFormat) (mps : List ColumnMapping)
    (fields : List OutputField) : List OutputField :=
  ((staticsOf fmt mps fields ++ calcsOf fmt mps fields ++
      mappedValsOf now fmt mps fields).filter (keepFilter1 mps)).filter
    (keepFilter2 mps)

theorem reconcileFields_eq (now : Nat) (fmt : OutputFormat) (mps : List ColumnMapping)
    (fields : List OutputField) :
    reconcileFields now fmt mps fields =
      renumber (sortFieldsByOrder (zOf now fmt mps fields)) := rfl

/-- `potPred` on a potential descriptor only looks at the mapping it was built
from. -/
def mpPred (k : Str) (m : ColumnMapping) : Bool :=
  mappedFidTruthy (mappedStub (m.mappedField.getD [])) == some k

theorem potPred_mkPotential (k : Str) (now : Nat) (fmt : OutputFormat)
    (mps : List ColumnMapping) (fields : List OutputField) (m : ColumnMapping)
    (idx : Nat) : potPred k (mkPotential now fmt mps fields m idx) = mpPred k m := rfl

theorem find?_congr_pointwise {α : Type} {p q : α → Bool} (h : ∀ a, p a = q a) :
    ∀ l : List α, l.find? p = l.find? q := by
  intro l
  induction l with
  | nil => rfl
  | cons a t ih =>
    cases hpa : p a with
    | true =>
      have hqa : q a = true := by rw [← h a]; exact hpa
      rw [List.find?_cons_of_pos t hpa, List.find?_cons_of_pos t hqa]
    | false =>
      have hqa : q a = false := by rw [← h a]; exact hpa
      rw [List.find?_cons_of_neg t (by rw [hpa]; exact fun hc => nomatch hc),
        List.find?_cons_of_neg t (by rw [hqa]; exact fun hc => nomatch hc), ih]

theorem find?_filter_and {α : Type} (q p : α → Bool) :
    ∀ l : List α, (l.filter q).find? p = l.find? (fun a => q a && p a) := by
  intro l
  induction l with
  | nil => rfl
  | cons a t ih =>
    cases hqa : q a with
    | false =>
      rw [List.filter_cons_of_neg (by rw [hqa]; exact fun hc => nomatch hc), ih,
        List.find?_cons_of_neg t
          (show ¬ (q a && p a) = true by rw [hqa]; exact fun hc => nomatch hc)]
    | true =>
      rw [List.filter_cons_of_pos (by rw [hqa]; try rfl)]
      cases hpa : p a with
      | true =>
        rw [List.find?_cons_of_pos (t.filter q) hpa,
          List.find?_cons_of_pos t (show (q a && p a) = true by rw [hqa, hpa]; try rfl)]
      | false =>
        rw [List.find?_cons_of_neg (t.filter q) (by rw [hpa]; exact fun hc => nomatch hc),
          List.find?_cons_of_neg t
            (show ¬ (q a && p a) = true by rw [hqa, hpa]; exact fun hc => nomatch hc), ih]

theorem find?_zip_fst {α β : Type} (pr : α → Bool) :
    ∀ (l : List α) (r : List β), l.length = r.length →
      ((l.zip r).find? (fun p => pr p.1)).map Prod.fst = l.find? pr := by
  intro l
  induction l with
  | nil =>
    intro r h
    rfl
  | cons a t ih =>
    intro r h
    cases r with
    | nil =>
      simp only [List.length_cons, List.length_nil] at h
      exact absurd h (Nat.succ_ne_zero _)
    | cons b r =>
      rw [List.zip_cons_cons]
      cases hpa : pr a with
      | true =>
        rw [List.find?_cons_of_pos (t.zip r) (show pr (a, b).1 = true from hpa),
          List.find?_cons_of_pos t hpa]
        rfl
      | false =>
        have hpab : ¬ (fun p : α × β => pr p.1) (a, b) = true := by
          show ¬ pr a = true
          rw [hpa]
          exact fun hc => nomatch hc
        rw [List.find?_cons_of_neg (t.zip r) hpab,
          List.find?_cons_of_neg t (by rw [hpa]; exact fun hc => nomatch hc)]
        refine ih r ?_
        simp only [List.length_cons] at h
        exact Nat.succ_injective h

theorem find?_isSome_eq_any {α : Type} (p : α → Bool) :
    ∀ l : List α, (l.find? p).isSome = l.any p := by
  intro l
  induction l with
  | nil => rfl
  | cons a t ih =>
    cases hpa : p a with
    | true =>
      rw [List.find?_cons_of_pos t hpa, List.any_cons, hpa]
      rfl
    | false =>
      rw [List.find?_cons_of_neg t (by rw [hpa]; exact fun hc => nomatch hc),
        List.any_cons, hpa, Bool.false_or, ih]

theorem mappedFidTruthy_mappedStub (fid : Str) :
    mappedFidTruthy (mappedStub fid) = if fid.isEmpty then none else some fid := rfl

theorem mpPred_and_isSome (k : Str) (hk : k ≠ []) (m : ColumnMapping) :
    (m.mappedField.isSome && mpPred k m) = (m.mappedField == some k) := by
  rw [mpPred]
  cases hmf : m.mappedField with
  | none =>
    rfl
  | some v =>
    rw [Option.isSome_some, Bool.true_and, Option.getD_some, mappedFidTruthy_mappedStub]
    cases v with
    | nil =>
      cases k with
      | nil => exact absurd rfl hk
      | cons c t => rfl
    | cons c t => rfl

/-- Locating the first potential carrying field id `k` identifies the first
column mapping carrying `k`, i.e. the one `mergeMapped` recomputes from; the
located potential is therefore a fix-point of the merge refresh. -/
theorem mergeFix_find?_potentials {now : Nat} {fmt : OutputFormat}
    {mps : List ColumnMapping} {fields : List OutputField} {k : Str} {p : OutputField}
    (h : (potentialsOf now fmt mps fields).find? (potPred k) = some p) :
    mergeMapped fmt mps k p = p := by
  have hk : k ≠ [] := by
    have hp := List.find?_some h
    rw [potPred_true_iff] at hp
    exact (mappedFidTruthy_eq_some hp).2
  rw [potentialsOf, List.find?_map] at h
  obtain ⟨q, hq, hFq⟩ := Option.map_eq_some'.mp h
  rw [@find?_congr_pointwise _
    (potPred k ∘ fun p : ColumnMapping × Nat => mkPotential now fmt mps fields p.1 p.2)
    (fun q : ColumnMapping × Nat => mpPred k q.1)
    (fun q => potPred_mkPotential k now fmt mps fields q.1 q.2)] at hq
  have hzip := find?_zip_fst (mpPred k) (filteredMpsOf mps)
    (List.range (filteredMpsOf mps).length) (List.length_range _).symm
  rw [hq] at hzip
  rw [filteredMpsOf, find?_filter_and,
    find?_congr_pointwise (mpPred_and_isSome k hk)] at hzip
  have hfind : findMappingFor mps k = some q.1 := by
    rw [findMappingFor]
    exact hzip.symm
  have hfid : q.1.mappedField = some k := by
    have := List.find?_some hzip.symm
    rwa [beq_iff_eq] at this
  rw [← hFq]
  exact mergeFix_mkPotential now fmt mps fields q.1 q.2 k hfind hfid

/-- A still-mapped field id is carried by some potential descriptor. -/
theorem find?_potentials_isSome {now : Nat} {fmt : OutputFormat}
    {mps : List ColumnMapping} {fields : List OutputField} {k : Str}
    (hm : hasMappingFor mps k = true) (hk : k ≠ []) :
    ((potentialsOf now fmt mps fields).find? (potPred k)).isSome = true := by
  rw [potentialsOf, List.find?_map, Option.isSome_map']
  rw [@find?_congr_pointwise _
    (potPred k ∘ fun p : ColumnMapping × Nat => mkPotential now fmt mps fields p.1 p.2)
    (fun q : ColumnMapping × Nat => mpPred k q.1)
    (fun q => potPred_mkPotential k now fmt mps fields q.1 q.2)]
  have hzip := find?_zip_fst (mpPred k) (filteredMpsOf mps)
    (List.range (filteredMpsOf mps).length) (List.length_range _).symm
  rw [← Option.isSome_map']
  rw [hzip]
  rw [filteredMpsOf, find?_filter_and,
    find?_congr_pointwise (mpPred_and_isSome k hk), find?_isSome_eq_any]
  exact hm

theorem mem_potentialsOf {now : Nat} {fmt : OutputFormat} {mps : List ColumnMapping}
    {fields : List OutputField} {p : OutputField}
    (h : p ∈ potentialsOf now fmt mps fields) :
    ∃ m, m ∈ filteredMpsOf mps ∧ ∃ idx, p = mkPotential now fmt mps fields m idx := by
  obtain ⟨q, hq, hFq⟩ := List.mem_map.mp h
  exact ⟨q.1, (List.of_mem_zip hq).1, q.2, hFq.symm⟩

/-- When every potential's field id already names a merge-fixed entry of the
map, the whole potential-merging fold is a no-op. -/
theorem foldAP_noop (fmt : OutputFormat) (mps : List ColumnMapping) :
    ∀ (ps : List OutputField) (acc : FieldMap),
      NodupKeysFM acc →
      (∀ p ∈ ps, ∀ k : Str, mappedFidTruthy p = some k →
        ∃ v, lookupFM acc k = some v ∧ mergeMapped fmt mps k v = v) →
      ps.foldl (applyPotential fmt mps) acc = acc := by
  intro ps
  induction ps with
  | nil =>
    intro acc _ _
    rfl
  | cons p0 ps ih =>
    intro acc hN hhyp
    rw [List.foldl_cons]
    cases hkey : mappedFidTruthy p0 with
    | none =>
      have hred : applyPotential fmt mps acc p0 = acc := by
        simp only [applyPotential, hkey]
      rw [hred]
      exact ih acc hN (fun p hp k hk => hhyp p (List.mem_cons_of_mem p0 hp) k hk)
    | some k0 =>
      obtain ⟨v, hlk, hfix⟩ := hhyp p0 (List.mem_cons_self p0 ps) k0 hkey
      have hred : applyPotential fmt mps acc p0 =
          setFM acc k0 (mergeMapped fmt mps k0 v) := by
        simp only [applyPotential, hkey, hlk]
      rw [hred, hfix, setFM_self acc k0 v hN hlk]
      exact ih acc hN (fun p hp k hk => hhyp p (List.mem_cons_of_mem p0 hp) k hk)

theorem renumberFrom_mem :
    ∀ (l : List OutputField) (i : Int) (g : OutputField), g ∈ renumberFrom i l →
      ∃ g0 ∈ l, ∃ j : Int, g = { g0 with order := j } := by
  intro l
  induction l with
  | nil =>
    intro i g hg
    cases hg
  | cons f t ih =>
    intro i g hg
    rw [renumberFrom] at hg
    rcases List.mem_cons.mp hg with h1 | h1
    · exact ⟨f, List.mem_cons_self f t, i, h1⟩
    · obtain ⟨g0, hg0, j, hj⟩ := ih (i + 1) g h1
      exact ⟨g0, List.mem_cons_of_mem f hg0, j, hj⟩

theorem renumberFrom_exists :
    ∀ (l : List OutputField) (i : Int) (v : OutputField), v ∈ l →
      ∃ j : Int, { v with order := j } ∈ renumberFrom i l := by
  intro l
  induction l with
  | nil =>
    intro i v hv
    cases hv
  | cons f t ih =>
    intro i v hv
    rw [renumberFrom]
    rcases List.mem_cons.mp hv with h1 | h1
    · refine ⟨i, ?_⟩
      rw [h1]
      exact List.mem_cons_self _ _
    · obtain ⟨j, hj⟩ := ih (i + 1) v h1
      exact ⟨j, List.mem_cons_of_mem _ hj⟩

theorem renumberFrom_eq_self :
    ∀ (l : List OutputField) (i : Int),
      (∀ (kk : Nat) (h : kk < l.length), (l.get ⟨kk, h⟩).order = i + kk) →
      renumberFrom i l = l := by
  intro l
  induction l with
  | nil =>
    intro i _
    rfl
  | cons f t ih =>
    intro i h
    rw [renumberFrom]
    have h0 : f.order = i + ((0 : Nat) : Int) := h 0 (by rw [List.length_cons]; omega)
    have h0' : f.order = i := by
      rw [h0]
      simp
    have ht : renumberFrom (i + 1) t = t := by
      apply ih
      intro kk hk
      have h2 : (t.get ⟨kk, hk⟩).order = i + ((kk + 1 : Nat) : Int) :=
        h (kk + 1) (by rw [List.length_cons]; omega)
      rw [h2]
      push_cast
      ring
    rw [ht, ← h0']

theorem ordersDense_get {l : List OutputField} (h : OrdersDense l)
    (i : Fin l.length) : (l.get i).order = (i.1 : Int) := by
  have h1 := List.get_of_eq h ⟨i.1, by rw [List.length_map]; exact i.2⟩
  rw [List.get_map] at h1
  rw [show l.get ⟨i.1, i.2⟩ = l.get i from rfl] at h1
  rw [h1, List.get_map, List.get_range]

theorem ordersDense_pairwise {l : List OutputField} (h : OrdersDense l) :
    l.Pairwise (fun a b => a.order < b.order) := by
  rw [List.pairwise_iff_get]
  intro i j hij
  rw [ordersDense_get h i, ordersDense_get h j]
  exact_mod_cast hij

theorem renumber_eq_self {l : List OutputField} (h : OrdersDense l) : renumber l = l := by
  rw [renumber]
  apply renumberFrom_eq_self
  intro kk hk
  rw [ordersDense_get h ⟨kk, hk⟩]
  show (kk : Int) = 0 + (kk : Int)
  omega

instance : IsTotal OutputField (fun a b => a.order ≤ b.order) :=
  ⟨fun a b => Int.le_total a.order b.order⟩

instance : IsTrans OutputField (fun a b => a.order ≤ b.order) :=
  ⟨fun a b c h1 h2 => le_trans h1 h2⟩

theorem sorted_perm_eq_strict :
    ∀ (l2 l1 : List OutputField), l1.Perm l2 →
      l1.Sorted (fun a b : OutputField => a.order ≤ b.order) →
      l2.Pairwise (fun a b : OutputField => a.order < b.order) →
      l1 = l2 := by
  intro l2
  induction l2 with
  | nil =>
    intro l1 hp _ _
    exact hp.eq_nil
  | cons g t ih =>
    intro l1 hp hs hpw
    cases l1 with
    | nil =>
      exact absurd (hp.symm.eq_nil) (by exact fun hc => nomatch hc)
    | cons h1 t1 =>
      have hh1 : h1 = g := by
        have hmem : h1 ∈ g :: t := hp.mem_iff.mp (List.mem_cons_self h1 t1)
        rcases List.mem_cons.mp hmem with hcase | hcase
        · exact hcase
        · exfalso
          have hg_lt : g.order < h1.order := (List.pairwise_cons.mp hpw).1 h1 hcase
          have hgmem : g ∈ h1 :: t1 := hp.mem_iff.mpr (List.mem_cons_self g t)
          rcases List.mem_cons.mp hgmem with h2 | h2
          · rw [h2] at hg_lt
            exact lt_irrefl _ hg_lt
          · have hle : h1.order ≤ g.order := (List.sorted_cons.mp hs).1 g h2
            omega
      subst hh1
      have hp' : t1.Perm t := hp.cons_inv
      have := ih t1 hp' (List.sorted_cons.mp hs).2 (List.pairwise_cons.mp hpw).2
      rw [this]

theorem sortFieldsByOrder_eq_of_perm {l y : List OutputField}
    (hp : l.Perm y) (hd : OrdersDense y) : sortFieldsByOrder l = y := by
  apply sorted_perm_eq_strict y (sortFieldsByOrder l)
  · exact (List.perm_insertionSort _ l).trans hp
  · exact List.sorted_insertionSort _ l
  · exact ordersDense_pairwise hd

theorem isStaticField_congr {f g : OutputField} (h : f.kind = g.kind) :
    isStaticField f = isStaticField g := by
  rw [isStaticField, isStaticField, h]

theorem isCalcField_congr {f g : OutputField} (h : f.kind = g.kind) :
    isCalcField f = isCalcField g := by
  rw [isCalcField, isCalcField, h]

theorem isMappedField_congr {f g : OutputField} (h : f.kind = g.kind) :
    isMappedField f = isMappedField g := by
  rw [isMappedField, isMappedField, h]

theorem keepFilter1_congr (mps : List ColumnMapping) {f g : OutputField}
    (h : f.kind = g.kind) : keepFilter1 mps f = keepFilter1 mps g := by
  rw [keepFilter1, keepFilter1, h]

theorem keepFilter2_congr (mps : List ColumnMapping) {f g : OutputField}
    (h : f.kind = g.kind) : keepFilter2 mps f = keepFilter2 mps g := by
  rw [keepFilter2, keepFilter2, h]

theorem mappedFidTruthy_congr {f g : OutputField} (h : f.kind = g.kind) :
    mappedFidTruthy f = mappedFidTruthy g := by
  rw [mappedFidTruthy, mappedFidTruthy, h]

theorem isStaticField_kind {f : OutputField} (h : isStaticField f = true) :
    ∃ n v, f.kind = FieldKind.staticF n v := by
  rw [isStaticField] at h
  rcases hk : f.kind with fid | ⟨n, v⟩ | ⟨ty, n, req, p1, p2⟩ <;> rw [hk] at h
  · have h' : false = true := h
    cases h'
  · exact ⟨n, v, rfl⟩
  · have h' : false = true := h
    cases h'

theorem isCalcField_kind {f : OutputField} (h : isCalcField f = true) :
    ∃ ty n req p1 p2, f.kind = FieldKind.calc ty n req p1 p2 := by
  rw [isCalcField] at h
  rcases hk : f.kind with fid | ⟨n, v⟩ | ⟨ty, n, req, p1, p2⟩ <;> rw [hk] at h
  · have h' : false = true := h
    cases h'
  · have h' : false = true := h
    cases h'
  · exact ⟨ty, n, req, p1, p2, rfl⟩

theorem isStaticField_of_kind {f : OutputField} {n v : Str}
    (h : f.kind = FieldKind.staticF n v) : isStaticField f = true := by
  rw [isStaticField, h]

theorem isCalcField_of_kind {f : OutputField} {ty : CalcType} {n : Str} {req : List Str}
    {p1 p2 : Option Str} (h : f.kind = FieldKind.calc ty n req p1 p2) :
    isCalcField f = true := by
  rw [isCalcField, h]

theorem isMappedField_of_kind {f : OutputField} {fid : Str}
    (h : f.kind = FieldKind.mapped fid) : isMappedField f = true := by
  rw [isMappedField, h]

theorem isStaticField_of_mapped {f : OutputField} {fid : Str}
    (h : f.kind = FieldKind.mapped fid) : isStaticField f = false := by
  rw [isStaticField, h]

theorem isCalcField_of_mapped {f : OutputField} {fid : Str}
    (h : f.kind = FieldKind.mapped fid) : isCalcField f = false := by
  rw [isCalcField, h]

theorem mappedFidTruthy_of_static {f : OutputField} {n v : Str}
    (h : f.kind = FieldKind.staticF n v) : mappedFidTruthy f = none := by
  rw [mappedFidTruthy, h]

theorem mappedFidTruthy_of_calc {f : OutputField} {ty : CalcType} {n : Str}
    {req : List Str} {p1 p2 : Option Str}
    (h : f.kind = FieldKind.calc ty n req p1 p2) : mappedFidTruthy f = none := by
  rw [mappedFidTruthy, h]

theorem keepFilter1_mapped (mps : List ColumnMapping) {f : OutputField} {fid : Str}
    (h : f.kind = FieldKind.mapped fid) :
    keepFilter1 mps f = hasMappingFor mps fid := by
  rw [keepFilter1, h]
  rfl

theorem keepFilter2_mapped (mps : List ColumnMapping) {f : OutputField} {fid : Str}
    (h : f.kind = FieldKind.mapped fid) : keepFilter2 mps f = true := by
  rw [keepFilter2, h]

/-- The per-kind fix-point property every descriptor of a freshly reconciled
schema enjoys: refreshed statics and calculateds absorb a further refresh,
and a mapped descriptor has a non-empty field id and absorbs a further merge. -/
def GoodField (fmt : OutputFormat) (mps : List ColumnMapping) (g : OutputField) : Prop :=
  (isStaticField g = true → StaticFix fmt mps g) ∧
  (isCalcField g = true → CalcFix fmt mps g) ∧
  (∀ fid : Str, g.kind = FieldKind.mapped fid →
    fid ≠ [] ∧ mergeMapped fmt mps fid g = g)

theorem goodField_order {fmt : OutputFormat} {mps : List ColumnMapping}
    {g : OutputField} (hg : GoodField fmt mps g) (j : Int) :
    GoodField fmt mps { g with order := j } := by
  obtain ⟨h1, h2, h3⟩ := hg
  refine ⟨?_, ?_, ?_⟩
  · intro hs
    exact staticFix_order fmt mps g (h1 hs) j
  · intro hs
    exact calcFix_order fmt mps g (h2 hs) j
  · intro fid hfid
    obtain ⟨hne, hfix⟩ := h3 fid hfid
    exact ⟨hne, mergeFix_order fmt mps fid g hfix j⟩

theorem good_staticsOf (fmt : OutputFormat) (mps : List ColumnMapping)
    (fields : List OutputField) :
    ∀ g ∈ staticsOf fmt mps fields, GoodField fmt mps g ∧ isStaticField g = true := by
  intro g hg
  obtain ⟨f, hf, hgf⟩ := List.mem_map.mp hg
  have hfs : isStaticField f = true := (List.mem_filter.mp hf).2
  obtain ⟨n, v, hkf⟩ := isStaticField_kind hfs
  have hkg : g.kind = FieldKind.staticF n v := by
    rw [← hgf, kind_normStatic]
    exact hkf
  refine ⟨⟨?_, ?_, ?_⟩, isStaticField_of_kind hkg⟩
  · intro _
    rw [← hgf]
    exact staticFix_normStatic fmt mps _ f
  · intro hc
    rw [isCalcField, hkg] at hc
    have h' : false = true := hc
    cases h'
  · intro fid hfid
    rw [hkg] at hfid
    cases hfid

theorem good_calcsOf (fmt : OutputFormat) (mps : List ColumnMapping)
    (fields : List OutputField) :
    ∀ g ∈ calcsOf fmt mps fields, GoodField fmt mps g ∧ isCalcField g = true := by
  intro g hg
  obtain ⟨f, hf, hgf⟩ := List.mem_map.mp hg
  have hfs : isCalcField f = true := (List.mem_filter.mp hf).2
  obtain ⟨ty, n, req, p1, p2, hkf⟩ := isCalcField_kind hfs
  have hkg : g.kind = FieldKind.calc ty n req p1 p2 := by
    rw [← hgf, kind_normCalc]
    exact hkf
  refine ⟨⟨?_, ?_, ?_⟩, isCalcField_of_kind hkg⟩
  · intro hc
    rw [isStaticField, hkg] at hc
    have h' : false = true := hc
    cases h'
  · intro _
    rw [← hgf]
    exact calcFix_normCalc fmt mps _ f
  · intro fid hfid
    rw [hkg] at hfid
    cases hfid

/-- The finished `uniqueMappedFieldsMap` of a reconciliation pass, with the
four facts the idempotence argument needs about it. -/
theorem map2_facts (now : Nat) (fmt : OutputFormat) (mps : List ColumnMapping)
    (fields : List OutputField) :
    (∀ pr ∈ (potentialsOf now fmt mps fields).foldl (applyPotential fmt mps)
        (seedMap fields), pr.2.kind = FieldKind.mapped pr.1 ∧ pr.1 ≠ []) ∧
    NodupKeysFM ((potentialsOf now fmt mps fields).foldl (applyPotential fmt mps)
      (seedMap fields)) ∧
    (∀ pr ∈ (potentialsOf now fmt mps fields).foldl (applyPotential fmt mps)
        (seedMap fields), hasMappingFor mps pr.1 = true →
      mergeMapped fmt mps pr.1 pr.2 = pr.2) ∧
    (∀ k : Str, (k ∈ keysFM (seedMap fields) ∨
        ((potentialsOf now fmt mps fields).find? (potPred k)).isSome = true) →
      k ∈ keysFM ((potentialsOf now fmt mps fields).foldl (applyPotential fmt mps)
        (seedMap fields))) :=
  foldAP_invariant fmt mps (potentialsOf now fmt mps fields) (seedMap fields)
    (seedMap_kinds fields) (seedMap_nodup fields)
    (fun _ _ hf _ => mergeFix_find?_potentials hf)
    (fun pr hpr hm =>
      Or.inr (find?_potentials_isSome hm ((seedMap_kinds fields pr hpr).2)))

theorem zOf_good (now : Nat) (fmt : OutputFormat) (mps : List ColumnMapping)
    (fields : List OutputField) :
    ∀ g ∈ zOf now fmt mps fields, GoodField fmt mps g ∧
      keepFilter1 mps g = true ∧ keepFilter2 mps g = true := by
  intro g hg
  rw [zOf] at hg
  have h2 := List.mem_filter.mp hg
  have h1 := List.mem_filter.mp h2.1
  refine ⟨?_, h1.2, h2.2⟩
  rcases List.mem_append.mp h1.1 with hsc | hm
  · rcases List.mem_append.mp hsc with hs | hc
    · exact (good_staticsOf fmt mps fields g hs).1
    · exact (good_calcsOf fmt mps fields g hc).1
  · obtain ⟨pr, hpr, hprg⟩ := List.mem_map.mp hm
    obtain ⟨hkind, hne⟩ := (map2_facts now fmt mps fields).1 pr hpr
    have hkg : g.kind = FieldKind.mapped pr.1 := by
      rw [← hprg]
      exact hkind
    refine ⟨?_, ?_, ?_⟩
    · intro hc
      rw [isStaticField, hkg] at hc
      have h' : false = true := hc
      cases h'
    · intro hc
      rw [isCalcField, hkg] at hc
      have h' : false = true := hc
      cases h'
    · intro fid hfid
      have hfid1 : pr.1 = fid := by
        rw [hkg] at hfid
        cases hfid
        rfl
      subst hfid1
      refine ⟨hne, ?_⟩
      have hmm : hasMappingFor mps pr.1 = true := by
        rw [← keepFilter1_mapped mps hkg]
        exact h1.2
      rw [← hprg]
      exact (map2_facts now fmt mps fields).2.2.1 pr hpr hmm

theorem reconcileFields_good (now : Nat) (fmt : OutputFormat)
    (mps : List ColumnMapping) (fields : List OutputField) :
    ∀ g ∈ reconcileFields now fmt mps fields,
      GoodField fmt mps g ∧ keepFilter1 mps g = true ∧ keepFilter2 mps g = true := by
  intro g hg
  rw [reconcileFields_eq, renumber] at hg
  obtain ⟨g0, hg0, j, hj⟩ := renumberFrom_mem _ 0 g hg
  have hg0z : g0 ∈ zOf now fmt mps fields := (mem_sortFieldsByOrder g0 _).mp hg0
  obtain ⟨hgood, hk1, hk2⟩ := zOf_good now fmt mps fields g0 hg0z
  have hkind : g.kind = g0.kind := by
    rw [hj]
  subst hj
  refine ⟨goodField_order hgood j, ?_, ?_⟩
  · rw [keepFilter1_congr mps hkind]
    exact hk1
  · rw [keepFilter2_congr mps hkind]
    exact hk2

theorem fidsOf_renumberFrom :
    ∀ (l : List OutputField) (i : Int), fidsOf (renumberFrom i l) = fidsOf l := by
  intro l
  induction l with
  | nil =>
    intro i
    rfl
  | cons f t ih =>
    intro i
    rw [renumberFrom, fidsOf, fidsOf]
    cases hkey : mappedFidTruthy f with
    | none =>
      rw [List.filterMap_cons_none
          (show mappedFidTruthy { f with order := i } = none from hkey),
        List.filterMap_cons_none hkey]
      exact ih (i + 1)
    | some k =>
      rw [List.filterMap_cons_some
          (show mappedFidTruthy { f with order := i } = some k from hkey),
        List.filterMap_cons_some hkey]
      exact congrArg (List.cons k) (ih (i + 1))

theorem fidsOf_map_snd :
    ∀ (m : FieldMap), (∀ pr ∈ m, pr.2.kind = FieldKind.mapped pr.1 ∧ pr.1 ≠ []) →
      fidsOf (m.map Prod.snd) = keysFM m := by
  intro m
  induction m with
  | nil =>
    intro _
    rfl
  | cons pr t ih =>
    intro h
    have hpr := h pr (List.mem_cons_self pr t)
    rw [List.map_cons, fidsOf,
      List.filterMap_cons_some (mappedFidTruthy_of_kind hpr.1 hpr.2)]
    rw [keysFM, List.map_cons]
    exact congrArg (List.cons pr.1) (ih (fun q hq => h q (List.mem_cons_of_mem pr hq)))

theorem fidsOf_staticsOf (fmt : OutputFormat) (mps : List ColumnMapping)
    (fields : List OutputField) : fidsOf (staticsOf fmt mps fields) = [] := by
  rw [fidsOf, List.filterMap_eq_nil]
  intro g hg
  obtain ⟨n, v, hk⟩ := isStaticField_kind (good_staticsOf fmt mps fields g hg).2
  exact mappedFidTruthy_of_static hk

theorem fidsOf_calcsOf (fmt : OutputFormat) (mps : List ColumnMapping)
    (fields : List OutputField) : fidsOf (calcsOf fmt mps fields) = [] := by
  rw [fidsOf, List.filterMap_eq_nil]
  intro g hg
  obtain ⟨ty, n, req, p1, p2, hk⟩ := isCalcField_kind (good_calcsOf fmt mps fields g hg).2
  exact mappedFidTruthy_of_calc hk

theorem fidsOf_reconcileFields_nodup (now : Nat) (fmt : OutputFormat)
    (mps : List ColumnMapping) (fields : List OutputField) :
    (fidsOf (reconcileFields now fmt mps fields)).Nodup := by
  rw [reconcileFields_eq, renumber, fidsOf_renumberFrom]
  have hperm : (fidsOf (sortFieldsByOrder (zOf now fmt mps fields))).Perm
      (fidsOf (zOf now fmt mps fields)) :=
    (List.perm_insertionSort _ _).filterMap _
  rw [hperm.nodup_iff]
  have hsub : List.Sublist (zOf now fmt mps fields)
      (staticsOf fmt mps fields ++ calcsOf fmt mps fields ++
        mappedValsOf now fmt mps fields) := by
    rw [zOf]
    exact (List.filter_sublist _).trans (List.filter_sublist _)
  refine List.Nodup.sublist (hsub.filterMap _) ?_
  rw [List.filterMap_append, List.filterMap_append]
  rw [show List.filterMap mappedFidTruthy (staticsOf fmt mps fields) = [] from
      fidsOf_staticsOf fmt mps fields,
    show List.filterMap mappedFidTruthy (calcsOf fmt mps fields) = [] from
      fidsOf_calcsOf fmt mps fields]
  rw [List.nil_append, List.nil_append]
  rw [show List.filterMap mappedFidTruthy (mappedValsOf now fmt mps fields) =
      keysFM ((potentialsOf now fmt mps fields).foldl (applyPotential fmt mps)
        (seedMap fields)) from
    fidsOf_map_snd _ (map2_facts now fmt mps fields).1]
  exact (map2_facts now fmt mps fields).2.1

theorem reconcileFields_has_fid (now : Nat) (fmt : OutputFormat)
    (mps : List ColumnMapping) (fields : List OutputField) {k : Str}
    (hm : hasMappingFor mps k = true) (hk : k ≠ []) :
    ∃ g ∈ reconcileFields now fmt mps fields, mappedFidTruthy g = some k := by
  have hkey : k ∈ keysFM ((potentialsOf now fmt mps fields).foldl
      (applyPotential fmt mps) (seedMap fields)) :=
    (map2_facts now fmt mps fields).2.2.2 k (Or.inr (find?_potentials_isSome hm hk))
  rw [keysFM] at hkey
  obtain ⟨pr, hpr, hfst⟩ := List.mem_map.mp hkey
  obtain ⟨hkind, hne⟩ := (map2_facts now fmt mps fields).1 pr hpr
  have hvkind : pr.2.kind = FieldKind.mapped k := by
    rw [hkind, hfst]
  have hvmem : pr.2 ∈ mappedValsOf now fmt mps fields := by
    rw [mappedValsOf]
    exact List.mem_map_of_mem Prod.snd hpr
  have hcomb : pr.2 ∈ staticsOf fmt mps fields ++ calcsOf fmt mps fields ++
      mappedValsOf now fmt mps fields :=
    List.mem_append_right _ hvmem
  have hz : pr.2 ∈ zOf now fmt mps fields := by
    rw [zOf]
    refine List.mem_filter.mpr ⟨List.mem_filter.mpr ⟨hcomb, ?_⟩, ?_⟩
    · rw [keepFilter1_mapped mps hvkind]
      exact hm
    · rw [keepFilter2_mapped mps hvkind]
  have hsorted : pr.2 ∈ sortFieldsByOrder (zOf now fmt mps fields) :=
    (mem_sortFieldsByOrder pr.2 _).mpr hz
  obtain ⟨j, hj⟩ := renumberFrom_exists _ 0 pr.2 hsorted
  refine ⟨{ pr.2 with order := j }, ?_, ?_⟩
  · rw [reconcileFields_eq, renumber]
    exact hj
  · rw [show mappedFidTruthy { pr.2 with order := j } = mappedFidTruthy pr.2 from rfl]
    exact mappedFidTruthy_of_kind hvkind (by rw [hfst] at hne; exact hne)

theorem isCalcField_of_static {f : OutputField} {n v : Str}
    (h : f.kind = FieldKind.staticF n v) : isCalcField f = false := by
  rw [isCalcField, h]

theorem isMappedField_of_static {f : OutputField} {n v : Str}
    (h : f.kind = FieldKind.staticF n v) : isMappedField f = false := by
  rw [isMappedField, h]

theorem isStaticField_of_calc {f : OutputField} {ty : CalcType} {n : Str}
    {req : List Str} {p1 p2 : Option Str}
    (h : f.kind = FieldKind.calc ty n req p1 p2) : isStaticField f = false := by
  rw [isStaticField, h]

theorem isMappedField_of_calc {f : OutputField} {ty : CalcType} {n : Str}
    {req : List Str} {p1 p2 : Option Str}
    (h : f.kind = FieldKind.calc ty n req p1 p2) : isMappedField f = false := by
  rw [isMappedField, h]

/-- Splitting a descriptor list into its static, calculated and mapped parts
is a permutation of the list. -/
theorem partition_perm (y : List OutputField) :
    (y.filter isStaticField ++ y.filter isCalcField ++
      y.filter isMappedField).Perm y := by
  induction y with
  | nil => exact List.Perm.refl _
  | cons f t ih =>
    rcases hk : f.kind with fid | ⟨n, v⟩ | ⟨ty, n, req, p1, p2⟩
    · have e1 : ¬ isStaticField f = true := by rw [isStaticField_of_mapped hk]; exact fun hc => nomatch hc
      have e2 : ¬ isCalcField f = true := by rw [isCalcField_of_mapped hk]; exact fun hc => nomatch hc
      rw [List.filter_cons_of_neg e1, List.filter_cons_of_neg e2,
        List.filter_cons_of_pos (by rw [isMappedField_of_kind hk])]
      exact (List.perm_middle).trans (ih.cons f)
    · have e2 : ¬ isCalcField f = true := by rw [isCalcField_of_static hk]; exact fun hc => nomatch hc
      have e3 : ¬ isMappedField f = true := by rw [isMappedField_of_static hk]; exact fun hc => nomatch hc
      rw [List.filter_cons_of_pos (by rw [isStaticField_of_kind hk]),
        List.filter_cons_of_neg e2, List.filter_cons_of_neg e3]
      exact ih.cons f
    · have e1 : ¬ isStaticField f = true := by rw [isStaticField_of_calc hk]; exact fun hc => nomatch hc
      have e3 : ¬ isMappedField f = true := by rw [isMappedField_of_calc hk]; exact fun hc => nomatch hc
      rw [List.filter_cons_of_neg e1,
        List.filter_cons_of_pos (by rw [isCalcField_of_kind hk]),
        List.filter_cons_of_neg e3]
      exact ((List.perm_middle).append_right _).trans (ih.cons f)

/-- Core of the idempotence claim: a descriptor list in which every element is
a fix-point of its refresh, whose orders are dense, whose mapped field ids are
duplicate-free, and which carries a mapped descriptor for every still-mapped
field id, is itself a fix-point of the whole reconciliation. -/
theorem reconcileFields_fixed (now2 : Nat) (fmt : OutputFormat)
    (mps : List ColumnMapping) (y : List OutputField)
    (hgood : ∀ g ∈ y, GoodField fmt mps g ∧ keepFilter1 mps g = true ∧
      keepFilter2 mps g = true)
    (hdense : OrdersDense y)
    (hfids : (fidsOf y).Nodup)
    (hhasfid : ∀ k : Str, hasMappingFor mps k = true → k ≠ [] →
      ∃ g ∈ y, mappedFidTruthy g = some k) :
    reconcileFields now2 fmt mps y = y := by
  have hstat : staticsOf fmt mps y = y.filter isStaticField := by
    rw [staticsOf]
    have hfix : ∀ f ∈ y.filter isStaticField,
        normStatic fmt mps (lookupLastById y f.id) f = f := by
      intro f hf
      have hmem := (List.mem_filter.mp hf).1
      have hst := (List.mem_filter.mp hf).2
      exact ((hgood f hmem).1.1 hst) (lookupLastById y f.id)
    exact (List.map_congr_left hfix).trans (List.map_id _)
  have hcalc : calcsOf fmt mps y = y.filter isCalcField := by
    rw [calcsOf]
    have hfix : ∀ f ∈ y.filter isCalcField,
        normCalc fmt mps (lookupLastById y f.id) f = f := by
      intro f hf
      have hmem := (List.mem_filter.mp hf).1
      have hst := (List.mem_filter.mp hf).2
      exact ((hgood f hmem).1.2.1 hst) (lookupLastById y f.id)
    exact (List.map_congr_left hfix).trans (List.map_id _)
  have hseed : seedMap y = y.filterMap seedPair := seedMap_eq_filterMap y hfids
  have hfold : (potentialsOf now2 fmt mps y).foldl (applyPotential fmt mps)
      (seedMap y) = seedMap y := by
    apply foldAP_noop fmt mps _ _ (seedMap_nodup y)
    intro p hp k hkp
    obtain ⟨m, hmF, idx, hpm⟩ := mem_potentialsOf hp
    obtain ⟨hpk, hkne⟩ := mappedFidTruthy_eq_some hkp
    have hmk : m.mappedField = some k := by
      have h1 : FieldKind.mapped (m.mappedField.getD []) = FieldKind.mapped k := by
        rw [← kind_mkPotential now2 fmt mps y m idx, ← hpm]
        exact hpk
      have h2 : m.mappedField.getD [] = k := by
        cases h1
        rfl
      have h3 : m.mappedField.isSome = true := (List.mem_filter.mp hmF).2
      cases hmf : m.mappedField with
      | none =>
        rw [hmf] at h3
        cases h3
      | some v =>
        rw [hmf, Option.getD_some] at h2
        rw [h2]
    have hmm : hasMappingFor mps k = true := by
      rw [hasMappingFor, List.any_eq_true]
      refine ⟨m, (List.mem_filter.mp hmF).1, ?_⟩
      rw [hmk]
      exact beq_self_eq_true _
    obtain ⟨g, hgy, hgk⟩ := hhasfid k hmm hkne
    have hkmem : k ∈ keysFM (seedMap y) := by
      rw [hseed, keysFM_filterMap_seedPair, fidsOf]
      exact List.mem_filterMap.mpr ⟨g, hgy, hgk⟩
    have hlks : (lookupFM (seedMap y) k).isSome = true :=
      (lookupFM_isSome_iff _ k).mpr hkmem
    cases hv : lookupFM (seedMap y) k with
    | none =>
      rw [hv] at hlks
      cases hlks
    | some v =>
      refine ⟨v, rfl, ?_⟩
      have hvp := mem_of_lookupFM hv
      rw [hseed] at hvp
      obtain ⟨hvy, hvk⟩ := mem_filterMap_seedPair hvp
      obtain ⟨hgd, _, _⟩ := hgood v hvy
      obtain ⟨hkind, _⟩ := mappedFidTruthy_eq_some hvk
      exact (hgd.2.2 k hkind).2
  have hmapped : mappedValsOf now2 fmt mps y = y.filter isMappedField := by
    rw [mappedValsOf, hfold, hseed, mapSnd_filterMap_seedPair]
    apply List.filter_congr
    intro f hf
    cases hkey : mappedFidTruthy f with
    | some k =>
      obtain ⟨hkind, _⟩ := mappedFidTruthy_eq_some hkey
      rw [isMappedField_of_kind hkind]
      rfl
    | none =>
      rcases hkf : f.kind with fid | ⟨n, v⟩ | ⟨ty, n, req, p1, p2⟩
      · obtain ⟨hgd, _, _⟩ := hgood f hf
        obtain ⟨hne, _⟩ := hgd.2.2 fid hkf
        rw [mappedFidTruthy_of_kind hkf hne] at hkey
        cases hkey
      · rw [isMappedField_of_static hkf]
        rfl
      · rw [isMappedField_of_calc hkf]
        rfl
  have hmemy : ∀ a : OutputField, a ∈ y.filter isStaticField ++ y.filter isCalcField ++
      y.filter isMappedField → a ∈ y := by
    intro a ha
    rcases List.mem_append.mp ha with h1 | h1
    · rcases List.mem_append.mp h1 with h2 | h2
      · exact (List.mem_filter.mp h2).1
      · exact (List.mem_filter.mp h2).1
    · exact (List.mem_filter.mp h1).1
  have hfilters : zOf now2 fmt mps y = y.filter isStaticField ++
      y.filter isCalcField ++ y.filter isMappedField := by
    rw [zOf, hstat, hcalc, hmapped]
    rw [List.filter_eq_self.mpr (fun a ha => (hgood a (hmemy a ha)).2.1)]
    rw [List.filter_eq_self.mpr (fun a ha => (hgood a (hmemy a ha)).2.2)]
  rw [reconcileFields_eq now2 fmt mps y, hfilters,
    sortFieldsByOrder_eq_of_perm (partition_perm y) hdense]
  exact renumber_eq_self hdense

/-- Applying the fields reconciliation twice (with possibly different `Date.now`
values) equals applying it once. -/
theorem reconcileFields_idem (now2 now : Nat) (fmt : OutputFormat)
    (mps : List ColumnMapping) (fields : List OutputField) :
    reconcileFields now2 fmt mps (reconcileFields now fmt mps fields) =
      reconcileFields now fmt mps fields :=
  reconcileFields_fixed now2 fmt mps _
    (reconcileFields_good now fmt mps fields)
    (ordersDense_reconcileFields now fmt mps fields)
    (fidsOf_reconcileFields_nodup now fmt mps fields)
    (fun _ hm hk => reconcileFields_has_fid now fmt mps fields hm hk)

/-- Claim C6: the schema reconciliation is idempotent — for every column-mapping
table, output format and output schema, applying the reconciliation step twice
with the same mappings and format (the generated-id timestamps may even differ)
produces a schema identical, field for field, to applying it once. -/
theorem claim_C6_reconcile_idempotent (now2 now : Nat) (mps : List ColumnMapping)
    (cfg : OutputConfigT) :
    reconcile now2 mps (reconcile now mps cfg) = reconcile now mps cfg := by
  by_cases h : cfg.fields = reconcileFields now cfg.format mps cfg.fields
  · have h1 : reconcile now mps cfg = cfg := by
      simp only [reconcile]
      rw [if_pos h]
    rw [h1]
    have h2 : cfg.fields = reconcileFields now2 cfg.format mps cfg.fields := by
      calc cfg.fields = reconcileFields now cfg.format mps cfg.fields := h
        _ = reconcileFields now2 cfg.format mps
            (reconcileFields now cfg.format mps cfg.fields) :=
          (reconcileFields_idem now2 now cfg.format mps cfg.fields).symm
        _ = reconcileFields now2 cfg.format mps cfg.fields := by rw [← h]
    simp only [reconcile]
    rw [if_pos h2]
  · have h1 : reconcile now mps cfg =
        { cfg with fields := reconcileFields now cfg.format mps cfg.fields } := by
      simp only [reconcile]
      rw [if_neg h]
    rw [h1]
    have h2 : ({ cfg with
          fields := reconcileFields now cfg.format mps cfg.fields }).fields =
        reconcileFields now2
          ({ cfg with
            fields := reconcileFields now cfg.format mps cfg.fields }).format mps
          ({ cfg with
            fields := reconcileFields now cfg.format mps cfg.fields }).fields := by
      show reconcileFields now cfg.format mps cfg.fields =
        reconcileFields now2 cfg.format mps
          (reconcileFields now cfg.format mps cfg.fields)
      exact (reconcileFields_idem now2 now cfg.format mps cfg.fields).symm
    simp only [reconcile]
    rw [if_pos h2]

end SCA
